import Mathlib

/-!
Shallow embedding of the GJSON path-expansion engine (`ExpandPath` and its
helpers) and proofs about it.

Modelling conventions:
* Go strings are modelled as `List Char` (`Str`).  The source iterates over
  bytes; all inputs considered here are ASCII, where bytes and characters
  coincide.
* Go `[]string` results are modelled as `Option (List Str)`: `none` is a nil
  Go slice, `some l` a non-nil slice (the two are observably different at the
  `ExpandPath` API, and the source tests `result == nil`).
* Go run-time panics (out-of-range slice expressions) are modelled by the
  `GoRes.panicked` result; Go recursion is modelled with a fuel parameter,
  whose exhaustion is the distinct result `GoRes.fuelOut`, so a `GoRes.ok`
  value is the value the Go code returns.
* JSON numbers are restricted to integers (the documents and numeric literals
  treated in the theorems below are all integral, where Go's float64
  formatting and parsing agree with integer formatting and parsing).
* `json.Unmarshal` is external library code; it is modelled as an
  `Option Json` argument to `ExpandPath` (`none` = the bytes do not parse).
* `regexp.MatchString` is external library code; the two call sites build
  anchored glob-like patterns (`*` = any run; `?` and, for `matchPattern`,
  `.` = any one character), which is how it is modelled here; other regex
  metacharacters are treated literally.
-/

/-- Go strings, modelled as lists of characters. -/
abbrev Str := List Char

/-- Coerce a Lean string literal to the `Str` model. -/
def strL (s : String) : Str := s.data

/-- The left brace character (written via its code point). -/
def lbrace : Char := Char.ofNat 123

/-- The right brace character (written via its code point). -/
def rbrace : Char := Char.ofNat 125

/-- Result of running a piece of the Go code: a value, a run-time panic, or
exhaustion of the fuel that models Go's unbounded recursion. -/
inductive GoRes (α : Type) where
  | ok (a : α)
  | panicked
  | fuelOut
deriving DecidableEq

instance : Monad GoRes where
  pure := GoRes.ok
  bind r f := match r with
    | .ok a => f a
    | .panicked => .panicked
    | .fuelOut => .fuelOut

/-- Model of `strings.HasPrefix s pre`. -/
def goHasPfx : Str → Str → Bool
  | _, [] => true
  | [], _ :: _ => false
  | c :: s, p :: ps => c == p && goHasPfx s ps

/-- Model of `strings.HasSuffix s suf`. -/
def goHasSfx (s suf : Str) : Bool := goHasPfx s.reverse suf.reverse

/-- Model of `strings.Index s sub` (`none` plays the role of Go's `-1`). -/
def goIndexOf : Str → Str → Option Nat
  | [], sub => if goHasPfx [] sub then some 0 else none
  | c :: t, sub =>
    if goHasPfx (c :: t) sub then some 0 else (goIndexOf t sub).map (· + 1)

/-- Model of `strings.Contains s sub`. -/
def goContains (s sub : Str) : Bool := (goIndexOf s sub).isSome

/-- Model of `strings.LastIndex s sub` (`none` plays the role of Go's `-1`). -/
def goLastIndexOf : Str → Str → Option Nat
  | [], sub => if sub.isEmpty then some 0 else none
  | c :: t, sub =>
    match goLastIndexOf t sub with
    | some i => some (i + 1)
    | none => if goHasPfx (c :: t) sub then some 0 else none

/-- Model of the Go slice expression `s[lo:hi]`, which panics unless
`0 ≤ lo ≤ hi ≤ len s`. -/
def goSlice (s : Str) (lo hi : Nat) : GoRes Str :=
  if lo ≤ hi ∧ hi ≤ s.length then .ok ((s.take hi).drop lo) else .panicked

/-- ASCII white space, as recognized by `strings.TrimSpace`. -/
def isSpaceGo (c : Char) : Bool :=
  c == ' ' || c == '\t' || c == '\n' || c == '\x0b' || c == '\x0c' || c == '\r'

/-- Model of `strings.TrimSpace` (ASCII fragment). -/
def goTrimSpace (s : Str) : Str :=
  ((s.dropWhile isSpaceGo).reverse.dropWhile isSpaceGo).reverse

/-- Worker for `goSplit`: a positive `skip` means we are inside an already
recognized separator occurrence and the next `skip` characters are consumed
without further matching. -/
def goSplitAux (sep : Str) : Str → Nat → List Str
  | [], _ => [[]]
  | _ :: t, skip + 1 => goSplitAux sep t skip
  | c :: t, 0 =>
    if goHasPfx (c :: t) sep then
      [] :: goSplitAux sep t (sep.length - 1)
    else
      match goSplitAux sep t 0 with
      | [] => [[c]]
      | h :: r => (c :: h) :: r

/-- Model of `strings.Split s sep` for a non-empty separator (the source only
splits on `"."`, `",!"` and `".#."`). -/
def goSplit (s sep : Str) : List Str :=
  if sep.isEmpty then [s] else goSplitAux sep s 0

/-- Model of `strings.SplitN s sep 2`. -/
def goSplitTwo (s sep : Str) : List Str :=
  match goIndexOf s sep with
  | none => [s]
  | some i => [s.take i, s.drop (i + sep.length)]

/-- Worker for `goReplaceAll`, with the same `skip` convention as
`goSplitAux`. -/
def goReplaceAllAux (old new : Str) : Str → Nat → Str
  | [], _ => []
  | _ :: t, skip + 1 => goReplaceAllAux old new t skip
  | c :: t, 0 =>
    if goHasPfx (c :: t) old then
      new ++ goReplaceAllAux old new t (old.length - 1)
    else
      c :: goReplaceAllAux old new t 0

/-- Model of `strings.ReplaceAll s old new` for non-empty `old` (the source
only replaces two-character escape sequences). -/
def goReplaceAll (s old new : Str) : Str :=
  if old.isEmpty then s else goReplaceAllAux old new s 0

/-- Model of `strings.TrimSuffix s suf`. -/
def goTrimSfx (s suf : Str) : Str :=
  if goHasSfx s suf then s.take (s.length - suf.length) else s

/-- The numeric value of a non-empty all-digit string. -/
def digitsToNat (s : Str) : Option Nat :=
  if s.isEmpty then none
  else if s.all Char.isDigit then
    some (s.foldl (fun a c => a * 10 + (c.toNat - 48)) 0)
  else none

/-- Model of `strconv.Atoi`: optional sign, decimal digits, 64-bit range. -/
def goAtoi (s : Str) : Option Int :=
  match s with
  | '+' :: r =>
    match digitsToNat r with
    | some n => if n ≤ 9223372036854775807 then some (Int.ofNat n) else none
    | none => none
  | '-' :: r =>
    match digitsToNat r with
    | some n => if n ≤ 9223372036854775808 then some (-(Int.ofNat n)) else none
    | none => none
  | _ =>
    match digitsToNat s with
    | some n => if n ≤ 9223372036854775807 then some (Int.ofNat n) else none
    | none => none

/-- Model of `strconv.ParseFloat` restricted to integer literals (all numeric
values compared in the theorems below are integral). -/
def parseGoFloat (s : Str) : Option Int :=
  match s with
  | '+' :: r => (digitsToNat r).map Int.ofNat
  | '-' :: r => (digitsToNat r).map (fun n => -(Int.ofNat n))
  | _ => (digitsToNat s).map Int.ofNat

/-- Go byte-wise string comparison `a < b`. -/
def goStrLess : Str → Str → Bool
  | [], [] => false
  | [], _ :: _ => true
  | _ :: _, [] => false
  | a :: s, b :: t =>
    if a.toNat < b.toNat then true
    else if b.toNat < a.toNat then false
    else goStrLess s t

/-- Insert a string into an ascending list (helper for `sortStrs`). -/
def insertSorted (x : Str) : List Str → List Str
  | [] => [x]
  | y :: r => if goStrLess y x then y :: insertSorted x r else x :: y :: r

/-- Ascending sort of strings; the source bubble-sorts matched object keys so
that the result does not depend on Go's random map iteration order. -/
def sortStrs : List Str → List Str
  | [] => []
  | x :: r => insertSorted x (sortStrs r)

/-- Insert a key/rendered-value pair into a list ascending by key. -/
def insertPairSorted (x : Str × Str) : List (Str × Str) → List (Str × Str)
  | [] => [x]
  | y :: r => if goStrLess y.1 x.1 then y :: insertPairSorted x r else x :: y :: r

/-- Ascending-by-key sort of key/rendered-value pairs (`fmt` prints map keys
in sorted order). -/
def sortPairs : List (Str × Str) → List (Str × Str)
  | [] => []
  | x :: r => insertPairSorted x (sortPairs r)

/-- Join strings with a single space (as `fmt`'s `%v` prints containers). -/
def joinSpace : List Str → Str
  | [] => []
  | [x] => x
  | x :: r => x ++ ' ' :: joinSpace r

/-- The JSON value tree produced by `json.Unmarshal` into `any`.  A JSON
`null` unmarshals to a nil Go interface value, so `Json.null` plays the role
of Go's `nil` throughout. -/
inductive Json where
  | null
  | bool (b : Bool)
  | num (n : Int)
  | str (s : Str)
  | arr (elems : List Json)
  | obj (fields : List (Str × Json))

/-- Lookup in the association-list model of a Go `map[string]any`. -/
def jlookup : List (Str × Json) → Str → Option Json
  | [], _ => none
  | (k, v) :: r, key => if k == key then some v else jlookup r key

/-- Decimal rendering of a natural number (Go's `fmt.Sprintf("%d", i)`). -/
def natStr (n : Nat) : Str := (Nat.repr n).data

mutual

/-- Model of `fmt.Sprintf("%v", v)` on unmarshalled JSON values (with numbers
restricted to integers, where `%v` of the underlying float64 is the plain
decimal rendering). -/
def sprintfV : Json → Str
  | .null => strL "<nil>"
  | .bool true => strL "true"
  | .bool false => strL "false"
  | .num n => (Int.repr n).data
  | .str s => s
  | .arr elems => '[' :: (joinSpace (sprintfVList elems) ++ [']'])
  | .obj fields =>
    strL "map[" ++
      (joinSpace ((sortPairs (sprintfVFields fields)).map
        (fun p => p.1 ++ ':' :: p.2)) ++ [']'])

/-- Render each array element (helper for `sprintfV`). -/
def sprintfVList : List Json → List Str
  | [] => []
  | j :: r => sprintfV j :: sprintfVList r

/-- Render each object field's value (helper for `sprintfV`). -/
def sprintfVFields : List (Str × Json) → List (Str × Str)
  | [] => []
  | (k, v) :: r => (k, sprintfV v) :: sprintfVFields r

end

/-- Model of `unescapeFieldName`: drop the escape characters recognized by
the path syntax, in the source's replacement order. -/
def unescapeFieldName (fieldName : Str) : Str :=
  let r := goReplaceAll fieldName (strL "\\.") (strL ".")
  let r := goReplaceAll r (strL "\\*") (strL "*")
  let r := goReplaceAll r (strL "\\?") (strL "?")
  let r := goReplaceAll r (strL "\\|") (strL "|")
  let r := goReplaceAll r (strL "\\#") (strL "#")
  let r := goReplaceAll r (strL "\\@") (strL "@")
  goReplaceAll r (strL "\\!") (strL "!")

/-- Model of `getFieldValue`: map lookup, trying the raw name first and the
unescaped name second; any failure produces Go's `nil` (`Json.null`). -/
def getFieldValue (data : Json) (fieldName : Str) : Json :=
  match data with
  | .obj fields =>
    match jlookup fields fieldName with
    | some v => v
    | none => (jlookup fields (unescapeFieldName fieldName)).getD .null
  | _ => .null

/-- The loop of `getValueAtPath` over dot-components. -/
def getValueAtPathLoop : List Str → Json → Json
  | [], current => current
  | component :: rest, current =>
    if component == strL "#" then getValueAtPathLoop rest current
    else
      match goAtoi component with
      | some idx =>
        match current with
        | .arr xs =>
          if 0 ≤ idx ∧ idx < (xs.length : Int) then
            getValueAtPathLoop rest (xs.getD idx.toNat .null)
          else .null
        | _ => .null
      | none =>
        match current with
        | .obj fields => getValueAtPathLoop rest ((jlookup fields component).getD .null)
        | _ => .null

/-- Model of `getValueAtPath`: re-resolve a produced literal path against a
value, skipping `#` components. -/
def getValueAtPath (rootData : Json) (path : Str) : Json :=
  if path.isEmpty then rootData
  else getValueAtPathLoop (goSplit path (strL ".")) rootData

/-- Model of `appendPath`. -/
def appendPath (currentPath component : Str) : Str :=
  if currentPath.isEmpty then component else currentPath ++ '.' :: component

/-- A path segment together with the separator that preceded it. -/
structure PathComponent where
  Component : Str
  Separator : Str
deriving DecidableEq

/-- Model of `joinPathComponents`: re-join segment texts with dots. -/
def joinPathComponents : List PathComponent → Str
  | [] => []
  | [comp] => comp.Component
  | comp :: rest => comp.Component ++ '.' :: joinPathComponents rest

/-- The state machine of `parsePathComponents`: one step per character, with
the escape flag, query-paren state, pending separator and the characters
accumulated for the current segment (the source tracks a start index into the
path instead; the accumulated characters are exactly `path[start:i]`). -/
def parsePathComponentsAux :
    Str → Bool → Bool → Int → Str → Str → List PathComponent
  | [], _, _, _, lastSeparator, cur =>
    if cur.isEmpty then [] else [⟨cur, lastSeparator⟩]
  | c :: rest, escape, inQuery, queryDepth, lastSeparator, cur =>
    if escape then
      parsePathComponentsAux rest false inQuery queryDepth lastSeparator (cur ++ [c])
    else if c == '\\' then
      parsePathComponentsAux rest true inQuery queryDepth lastSeparator (cur ++ [c])
    else
      let st :=
        if c == '(' then (true, queryDepth + 1)
        else if c == ')' then
          (if queryDepth - 1 == 0 then false else inQuery, queryDepth - 1)
        else (inQuery, queryDepth)
      if (c == '.' || c == '|') && !st.1 then
        let tail := parsePathComponentsAux rest false st.1 st.2 [c] []
        if cur.isEmpty then tail else ⟨cur, lastSeparator⟩ :: tail
      else
        parsePathComponentsAux rest false st.1 st.2 lastSeparator (cur ++ [c])

/-- Model of `parsePathComponents`. -/
def parsePathComponents (path : Str) : List PathComponent :=
  if path.isEmpty then [] else parsePathComponentsAux path false false 0 [] []

/-- The state machine of `parseMultipathComponents`: split on top-level commas
outside quotes and outside bracket/paren/brace nesting. -/
def parseMultipathComponentsAux : Str → Bool → Bool → Int → Str → List Str
  | [], _, _, _, cur =>
    let component := goTrimSpace cur
    if component.isEmpty then [] else [component]
  | c :: rest, escape, inQuotes, depth, cur =>
    if escape then
      parseMultipathComponentsAux rest false inQuotes depth (cur ++ [c])
    else if c == '\\' then
      parseMultipathComponentsAux rest true inQuotes depth (cur ++ [c])
    else
      let inQuotes2 := if c == '\"' then !inQuotes else inQuotes
      let depth2 :=
        if !inQuotes2 then
          if c == '(' || c == '[' || c == lbrace then depth + 1
          else if c == ')' || c == ']' || c == rbrace then depth - 1
          else depth
        else depth
      if c == ',' && !inQuotes2 && depth2 == 0 then
        let component := goTrimSpace cur
        let tail := parseMultipathComponentsAux rest false inQuotes2 depth2 []
        if component.isEmpty then tail else component :: tail
      else
        parseMultipathComponentsAux rest false inQuotes2 depth2 (cur ++ [c])

/-- Model of `parseMultipathComponents`. -/
def parseMultipathComponents (paths : Str) : List Str :=
  if paths.isEmpty then [] else parseMultipathComponentsAux paths false false 0 []

/-- A component of the object multipath form, with its optional display key. -/
structure multipathComponent where
  key : Str
  path : Str
deriving DecidableEq

/-- Per-part processing of the object multipath splitter: an optional leading
quoted key before a colon. -/
def splitMultipathObjPart (part : Str) : Option multipathComponent :=
  if part.isEmpty then none
  else
    match goIndexOf part (strL ":") with
    | some colonIdx =>
      if part.headD ' ' == '\"' then
        some ⟨part.take colonIdx, part.drop (colonIdx + 1)⟩
      else some ⟨[], part⟩
    | none => some ⟨[], part⟩

/-- The state machine of `parseMultipathObjectComponents`: split on commas
outside quotes (this splitter tracks no bracket depth). -/
def parseMultipathObjectComponentsAux :
    Str → Bool → Bool → Str → List multipathComponent
  | [], _, _, cur =>
    match splitMultipathObjPart (goTrimSpace cur) with
    | some mc => [mc]
    | none => []
  | c :: rest, escape, inQuotes, cur =>
    if escape then
      parseMultipathObjectComponentsAux rest false inQuotes (cur ++ [c])
    else if c == '\\' then
      parseMultipathObjectComponentsAux rest true inQuotes (cur ++ [c])
    else
      let inQuotes2 := if c == '\"' then !inQuotes else inQuotes
      if c == ',' && !inQuotes2 then
        let tail := parseMultipathObjectComponentsAux rest false inQuotes2 []
        match splitMultipathObjPart (goTrimSpace cur) with
        | some mc => mc :: tail
        | none => tail
      else
        parseMultipathObjectComponentsAux rest false inQuotes2 (cur ++ [c])

/-- Model of `parseMultipathObjectComponents`. -/
def parseMultipathObjectComponents (paths : Str) : List multipathComponent :=
  if paths.isEmpty then []
  else parseMultipathObjectComponentsAux paths false false []

/-- The scan of `findOperatorOutsideParentheses`, carrying the paren depth;
the scan stops as soon as fewer characters than the operator remain. -/
def findOperatorOutsideParenthesesAux (operator : Str) : Str → Int → Option Nat
  | s, depth =>
    if s.length < operator.length then none
    else
      match s with
      | [] => none
      | c :: t =>
        if c == '(' then
          (findOperatorOutsideParenthesesAux operator t (depth + 1)).map (· + 1)
        else if c == ')' then
          (findOperatorOutsideParenthesesAux operator t (depth - 1)).map (· + 1)
        else if depth == 0 && goHasPfx (c :: t) operator then some 0
        else (findOperatorOutsideParenthesesAux operator t depth).map (· + 1)

/-- Model of `findOperatorOutsideParentheses` (`none` plays Go's `-1`). -/
def findOperatorOutsideParentheses (query operator : Str) : Option Nat :=
  findOperatorOutsideParenthesesAux operator query 0

/-- A parsed filter predicate: field path, operator, literal value. -/
structure queryCondition where
  field : Str
  operator : Str
  value : Str
deriving DecidableEq

/-- The operator candidates, in the source's scan order. -/
def operatorsList : List Str :=
  [strL "!=", strL "!%", strL "==", strL ">=", strL "<=", strL ">", strL "<", strL "%"]

/-- First operator (with position) found by scanning `operatorsList`. -/
def findFirstOp : List Str → Str → Option (Str × Nat)
  | [], _ => none
  | op :: rest, query =>
    match findOperatorOutsideParentheses query op with
    | some idx => some (op, idx)
    | none => findFirstOp rest query

/-- Strip one layer of surrounding double quotes; mirrors the source's
`value[1 : len(value)-1]`, which panics on the one-character string `"`. -/
def stripQuotes (value : Str) : GoRes Str :=
  if goHasPfx value (strL "\"") && goHasSfx value (strL "\"") then
    goSlice value 1 (value.length - 1)
  else .ok value

/-- Model of `parseQueryCondition`. -/
def parseQueryCondition (query : Str) : GoRes queryCondition :=
  if goContains query (strL ".#(") && goContains query (strL ")") then
    .ok ⟨query, strL "==", strL "true"⟩
  else
    match findFirstOp operatorsList query with
    | some (op, idx) => do
      let field := goTrimSpace (query.take idx)
      let value ← stripQuotes (goTrimSpace (query.drop (idx + op.length)))
      pure ⟨field, op, value⟩
    | none =>
      if goContains query (strL "=") then
        match goSplitTwo query (strL "=") with
        | [p0, p1] => do
          let field := goTrimSpace p0
          let value ← stripQuotes (goTrimSpace p1)
          pure ⟨field, strL "==", value⟩
        | _ => .ok ⟨[], strL "==", query⟩
      else .ok ⟨[], strL "==", query⟩

/-- Model of `isTruthy`. -/
def isTruthy : Json → Bool
  | .null => false
  | .bool b => b
  | .str s => s == strL "1" || s == strL "true"
  | .num n => n == 1
  | _ => false

/-- Model of `isFalsy`. -/
def isFalsy : Json → Bool
  | .null => true
  | .bool b => !b
  | .str s => s == strL "0" || s == strL "false" || s.isEmpty
  | .num n => n == 0
  | _ => false

/-- Model of `isNull`. -/
def isNull : Json → Bool
  | .null => true
  | _ => false

/-- Model of the source's `exists` helper, which always reports true for an
element reached during array iteration. -/
def existsVal (_ : Json) : Bool := true

/-- Model of `evaluateTildeCondition` (tilde value against the element). -/
def evaluateTildeCondition (itemValue : Json) (operator tildeValue : Str) : Bool :=
  let tildeOp := tildeValue.drop 1
  let result? :=
    if tildeOp == strL "true" then some (isTruthy itemValue)
    else if tildeOp == strL "false" then some (isFalsy itemValue)
    else if tildeOp == strL "null" then some (isNull itemValue)
    else if tildeOp == strL "*" then some (existsVal itemValue)
    else none
  match result? with
  | none => false
  | some r => if operator == strL "!=" then !r else r

/-- Model of `evaluateTildeConditionWithContext` (tilde value against a named
field, with special-cased existence and falsiness for missing keys). -/
def evaluateTildeConditionWithContext
    (item : Json) (field operator tildeValue : Str) : Bool :=
  let tildeOp := tildeValue.drop 1
  let result? :=
    if tildeOp == strL "*" then
      some (match item with
        | .obj fields => (jlookup fields field).isSome
        | _ => false)
    else if tildeOp == strL "false" then
      some (match item with
        | .obj fields =>
          match jlookup fields field with
          | some v => isFalsy v
          | none => true
        | _ => true)
    else
      let itemValue := getFieldValue item field
      if tildeOp == strL "true" then some (isTruthy itemValue)
      else if tildeOp == strL "null" then some (isNull itemValue)
      else none
  match result? with
  | none => false
  | some r => if operator == strL "!=" then !r else r

/-- Fuelled glob matcher: `*` matches any run, `?` any one character, all
other characters literally. -/
def globMatchF : Nat → Str → Str → GoRes Bool
  | 0, _, _ => .fuelOut
  | fuel + 1, pattern, text =>
    match pattern, text with
    | [], [] => .ok true
    | [], _ :: _ => .ok false
    | '*' :: ps, ts => do
      let hit ← globMatchF fuel ps ts
      if hit then pure true
      else
        match ts with
        | [] => pure false
        | _ :: tr => globMatchF fuel ('*' :: ps) tr
    | '?' :: ps, ts =>
      match ts with
      | [] => .ok false
      | _ :: tr => globMatchF fuel ps tr
    | p :: ps, ts =>
      match ts with
      | [] => .ok false
      | t :: tr => if p == t then globMatchF fuel ps tr else .ok false

/-- Model of `matchPattern`: the source rewrites the GJSON pattern into an
anchored regex (`*` → `.*`, `?` → `.`), so a literal `.` in the pattern also
matches any one character. -/
def matchPattern (fuel : Nat) (text pattern : Str) : GoRes Bool :=
  globMatchF fuel (pattern.map (fun c => if c == '.' then '?' else c)) text

/-- Model of `matchWildcard`: the source quotes all regex metacharacters
before rewriting `*`/`?`, so only those two are wildcards here. -/
def matchWildcard (fuel : Nat) (text pattern : Str) : GoRes Bool :=
  globMatchF fuel pattern text

/-- Numeric-first comparison behind the `>` operator. -/
def goGreaterThan (itemStr conditionValue : Str) : Bool :=
  match parseGoFloat itemStr, parseGoFloat conditionValue with
  | some a, some b => b < a
  | _, _ => goStrLess conditionValue itemStr

/-- Numeric-first comparison behind the `<` operator. -/
def goLessThan (itemStr conditionValue : Str) : Bool :=
  match parseGoFloat itemStr, parseGoFloat conditionValue with
  | some a, some b => a < b
  | _, _ => goStrLess itemStr conditionValue

/-- Numeric-first comparison behind the `>=` operator. -/
def goGreaterEq (itemStr conditionValue : Str) : Bool :=
  match parseGoFloat itemStr, parseGoFloat conditionValue with
  | some a, some b => b ≤ a
  | _, _ => !goStrLess itemStr conditionValue

/-- Numeric-first comparison behind the `<=` operator. -/
def goLessEq (itemStr conditionValue : Str) : Bool :=
  match parseGoFloat itemStr, parseGoFloat conditionValue with
  | some a, some b => a ≤ b
  | _, _ => !goStrLess conditionValue itemStr

/-- Go `append(s, x)` for the `[]string` model (always non-nil afterwards). -/
def goAppendStr (s : Option (List Str)) (x : Str) : Option (List Str) :=
  some (s.getD [] ++ [x])

/-- Go `append(s, t...)` for the `[]string` model: appending a nil or empty
slice leaves `s` (and its nil-ness) unchanged. -/
def goAppendStrs (s t : Option (List Str)) : Option (List Str) :=
  match t with
  | none => s
  | some [] => s
  | some l => some (s.getD [] ++ l)

/-- A Go loop that accumulates `append(results, f(x)...)` over a list. -/
def goAccumM {α : Type} (f : α → GoRes (Option (List Str))) :
    List α → Option (List Str) → GoRes (Option (List Str))
  | [], acc => pure acc
  | x :: xs, acc => do
    let sub ← f x
    goAccumM f xs (goAppendStrs acc sub)

/-- A Go loop that keeps the elements on which `f` reports true. -/
def goFilterM {α : Type} (f : α → GoRes Bool) : List α → GoRes (List α)
  | [] => .ok []
  | x :: xs => do
    let b ← f x
    let r ← goFilterM f xs
    pure (if b then x :: r else r)

/-- A Go loop that collects the indices on which `f` reports true. -/
def goFilterIdxM (f : Json → GoRes Bool) : List (Nat × Json) → GoRes (List Nat)
  | [] => .ok []
  | (i, x) :: rest => do
    let b ← f x
    let r ← goFilterIdxM f rest
    pure (if b then i :: r else r)

/-- A Go loop that returns true on the first element satisfying `f` (later
elements are not evaluated, mirroring the source's early `return`). -/
def goFirstMatchM (f : Json → GoRes Bool) : List Json → GoRes Bool
  | [] => .ok false
  | x :: xs => do
    let b ← f x
    if b then pure true else goFirstMatchM f xs

mutual

/-- Model of `expandPathWithData`: dispatch on root shape (`@this`, multipath
grouping, a `,!` literal suffix) and otherwise expand a single path,
converting a nil single-path result into a non-nil empty one. -/
def expandPathWithData : Nat → Json → Str → GoRes (Option (List Str))
  | 0, _, _ => .fuelOut
  | fuel + 1, data, path =>
    if path.isEmpty then .ok (some [[]])
    else if path == strL "@this" then .ok (some [strL "@this"])
    else if goHasPfx path (strL "[") && goHasSfx path (strL "]") then
      expandMultipathArrayWithData fuel data (path.drop 1).dropLast
    else if goHasPfx path [lbrace] && goHasSfx path [rbrace] then
      expandMultipathObjectWithData fuel data (path.drop 1).dropLast
    else
      match (if goContains path (strL ",!") then (goSplit path (strL ",!")).head? else none) with
      | some beforeLiteral => expandPathWithData fuel data beforeLiteral
      | none => do
        let result ← expandSinglePath fuel data path []
        match result with
        | none => pure (some [])
        | some l => pure (some l)

termination_by structural fuel => fuel
/-- Model of `expandMultipathArrayWithData`: expand each non-literal
component against the same document and concatenate; an empty accumulated
result is returned as a nil slice. -/
def expandMultipathArrayWithData : Nat → Json → Str → GoRes (Option (List Str))
  | 0, _, _ => .fuelOut
  | fuel + 1, data, paths => do
    let pathList := parseMultipathComponents paths
    let result ← goAccumM
      (fun p =>
        if goHasPfx (goTrimSpace p) (strL "!") then pure none
        else expandPathWithData fuel data p)
      pathList none
    match result with
    | none => pure none
    | some [] => pure none
    | some l => pure (some l)

termination_by structural fuel => fuel
/-- Model of `expandMultipathObjectWithData`: as the array form, keys are
ignored for expansion. -/
def expandMultipathObjectWithData : Nat → Json → Str → GoRes (Option (List Str))
  | 0, _, _ => .fuelOut
  | fuel + 1, data, paths => do
    let components := parseMultipathObjectComponents paths
    let result ← goAccumM
      (fun comp =>
        if goHasPfx (goTrimSpace comp.path) (strL "!") then pure none
        else expandPathWithData fuel data comp.path)
      components none
    match result with
    | none => pure none
    | some [] => pure none
    | some l => pure (some l)

termination_by structural fuel => fuel
/-- Model of `expandSinglePath`: segment the path (modifiers are opaque
leaves) and hand over to the per-segment evaluator. -/
def expandSinglePath : Nat → Json → Str → Str → GoRes (Option (List Str))
  | 0, _, _, _ => .fuelOut
  | fuel + 1, data, path, currentPath =>
    if path.isEmpty then .ok (some [currentPath])
    else if goHasPfx path (strL "@") then .ok (some [appendPath currentPath path])
    else
      let components := parsePathComponents path
      if components.isEmpty then .ok (some [currentPath])
      else expandPathComponent fuel data components 0 currentPath

termination_by structural fuel => fuel
/-- Model of `expandPathComponent`: dispatch on the shape of the segment at
`index` (tilde, query, pure `#`, other `#` forms, wildcard, regular field). -/
def expandPathComponent :
    Nat → Json → List PathComponent → Nat → Str → GoRes (Option (List Str))
  | 0, _, _, _, _ => .fuelOut
  | fuel + 1, data, components, index, currentPath =>
    match components.get? index with
    | none => .ok (some [currentPath])
    | some pathComp =>
      let component := pathComp.Component
      if goHasPfx component (strL "~") then
        .ok (some [appendPath currentPath component])
      else if (goContains component (strL "#(") && goContains component (strL ")")) ||
          (goContains component (strL "#[") && goContains component (strL "]")) then
        expandQuery fuel data component components index currentPath
      else if component == strL "#" then
        if index + 1 == components.length then
          -- last segment: length path unless the accumulated path already
          -- contains three or more integer-parseable dot-tokens (the source
          -- also computes an unused hashCount here)
          let numericCount :=
            if currentPath.isEmpty then 0
            else ((goSplit currentPath (strL ".")).filter
              (fun part => (goAtoi part).isSome)).length
          if 3 ≤ numericCount then
            match data with
            | .arr xs =>
              .ok ((List.range xs.length).foldl
                (fun acc i => goAppendStr acc (appendPath currentPath (natStr i))) none)
            | _ => .ok (some [appendPath currentPath (strL "#")])
          else .ok (some [appendPath currentPath (strL "#")])
        else
          let pipeNext :=
            match components.get? (index + 1) with
            | some nextComp => nextComp.Separator == strL "|"
            | none => false
          if pipeNext then
            match data with
            | .arr _ =>
              -- the source then type-asserts the array to a map, which can
              -- never succeed, so this branch always returns an empty slice
              .ok (some [])
            | _ => .ok (some [appendPath currentPath (strL "#")])
          else
            match data with
            | .arr xs =>
              goAccumM
                (fun p : Nat × Json =>
                  expandPathComponent fuel p.2 components (index + 1)
                    (appendPath currentPath (natStr p.1)))
                xs.enum none
            | _ => .ok (some [appendPath currentPath (strL "#")])
      else if goContains component (strL "#") then
        expandArrayOperation fuel data component components index currentPath
      else if (goContains component (strL "*") && !goContains component (strL "\\*")) ||
          (goContains component (strL "?") && !goContains component (strL "\\?")) then
        expandWildcard fuel data component components index currentPath
      else expandRegularField fuel data component components index currentPath

termination_by structural fuel => fuel
/-- Model of `expandArrayOperation`: the `field.#.sub`, `field.#`, `#.sub`
and `field#` shapes, falling through the source's checks in order. -/
def expandArrayOperation :
    Nat → Json → Str → List PathComponent → Nat → Str → GoRes (Option (List Str))
  | 0, _, _, _, _, _ => .fuelOut
  | fuel + 1, data, component, components, index, currentPath =>
    if component == strL "#" then .ok (some [appendPath currentPath (strL "#")])
    else if goContains component (strL ".#.") &&
        (goSplit component (strL ".#.")).length == 2 then
      let parts := goSplit component (strL ".#.")
      let fieldName := parts.headD []
      let afterField := parts.getD 1 []
      let fieldPath := appendPath currentPath fieldName
      (do
        let results ←
          match getFieldValue data fieldName with
          | .arr xs =>
            goAccumM
              (fun p : Nat × Json =>
                expandSinglePath fuel p.2 afterField (appendPath fieldPath (natStr p.1)))
              xs.enum none
          | _ => pure none
        if index + 1 < components.length then
          goAccumM
            (fun result =>
              expandSinglePath fuel (getValueAtPath data result)
                (joinPathComponents (components.drop (index + 1))) result)
            (results.getD []) none
        else pure results)
    else if goHasSfx component (strL ".#") then
      let fieldName := component.take (component.length - 2)
      let fieldPath := appendPath currentPath fieldName
      let results :=
        match getFieldValue data fieldName with
        | .arr xs =>
          (List.range xs.length).foldl
            (fun acc i => goAppendStr acc (appendPath fieldPath (natStr i))) none
        | _ => none
      if index + 1 < components.length then
        goAccumM
          (fun result =>
            expandSinglePath fuel (getValueAtPath data result)
              (joinPathComponents (components.drop (index + 1))) result)
          (results.getD []) none
      else pure results
    else if goHasPfx component (strL "#") && component.length == 1 then
      .ok (some [appendPath currentPath (strL "#")])
    else if goHasPfx component (strL "#.") then
      let remainingPath := component.drop 2
      (do
        let results ←
          match data with
          | .arr xs =>
            goAccumM
              (fun p : Nat × Json =>
                expandSinglePath fuel p.2 remainingPath
                  (appendPath currentPath (natStr p.1)))
              xs.enum none
          | _ => pure none
        if index + 1 < components.length then
          goAccumM
            (fun result =>
              expandSinglePath fuel (getValueAtPath data result)
                (joinPathComponents (components.drop (index + 1))) result)
            (results.getD []) none
        else pure results)
    else if goHasSfx component (strL "#") && 1 < component.length then
      let fieldName := goTrimSfx (component.take (component.length - 1)) (strL ".")
      let fieldPath := appendPath currentPath fieldName
      .ok (some [appendPath fieldPath (strL "#")])
    else .ok (some [appendPath currentPath component])

termination_by structural fuel => fuel
/-- Model of `expandQuery`: parse field prefix, predicate body and suffix out
of the segment, filter the resolved array, and dispatch on the suffix
(`#`, `#.field`, empty with first-match/all-match selection, `.field`). -/
def expandQuery :
    Nat → Json → Str → List PathComponent → Nat → Str → GoRes (Option (List Str))
  | 0, _, _, _, _, _ => .fuelOut
  | fuel + 1, data, component, components, index, currentPath =>
    match
      (if goContains component (strL "#(") then
        some (goIndexOf component (strL "#("), goLastIndexOf component (strL ")"))
      else if goContains component (strL "#[") then
        some (goIndexOf component (strL "#["), goLastIndexOf component (strL "]"))
      else none) with
    | none => .ok (some [appendPath currentPath component])
    | some (queryStart?, queryEnd?) =>
      match queryStart?, queryEnd? with
      | some queryStart, some queryEnd => do
        let fieldPart := component.take queryStart
        let queryPart ← goSlice component (queryStart + 2) queryEnd
        let afterQuery := component.drop (queryEnd + 1)
        let resolved :=
          if fieldPart.isEmpty then
            match data with
            | .arr xs => (currentPath, xs)
            | _ => (([] : Str), ([] : List Json))
          else
            (appendPath currentPath fieldPart,
              match getFieldValue data fieldPart with
              | .arr xs => xs
              | _ => [])
        let fieldPath := resolved.1
        let arrayData := resolved.2
        let matchingIndices ← findMatchingIndices fuel arrayData queryPart
        let results ←
          (if goHasPfx afterQuery (strL "#") then
            if afterQuery == strL "#" then
              pure (matchingIndices.foldl
                (fun acc idx => goAppendStr acc (appendPath fieldPath (natStr idx))) none)
            else if goHasPfx afterQuery (strL "#.") then
              let remainingField := afterQuery.drop 2
              goAccumM
                (fun idx =>
                  if !remainingField.isEmpty && idx < arrayData.length then
                    expandSinglePath fuel (arrayData.getD idx .null) remainingField
                      (appendPath fieldPath (natStr idx))
                  else pure (some [appendPath fieldPath (natStr idx)]))
                matchingIndices none
            else pure none
          else if afterQuery.isEmpty then do
            let hasTrailingHash := goHasSfx component (strL "#")
            let condition ← parseQueryCondition queryPart
            let isPatternOperator :=
              condition.operator == strL "%" || condition.operator == strL "!%"
            if hasTrailingHash || isPatternOperator then
              pure (matchingIndices.foldl
                (fun acc idx => goAppendStr acc (appendPath fieldPath (natStr idx))) none)
            else
              match matchingIndices with
              | [] => pure none
              | idx0 :: _ => pure (some [appendPath fieldPath (natStr idx0)])
          else if goHasPfx afterQuery (strL ".") then
            let remainingField := afterQuery.drop 1
            goAccumM
              (fun idx =>
                if idx < arrayData.length then
                  expandSinglePath fuel (arrayData.getD idx .null) remainingField
                    (appendPath fieldPath (natStr idx))
                else pure none)
              matchingIndices none
          else pure none)
        if index + 1 < components.length then
          goAccumM
            (fun result =>
              expandSinglePath fuel (getValueAtPath data result)
                (joinPathComponents (components.drop (index + 1))) result)
            (results.getD []) none
        else pure results
      | _, _ => .ok (some [appendPath currentPath component])

termination_by structural fuel => fuel
/-- Model of `findMatchingIndices`: the predicate body is parsed only when
the array is non-empty, then each element is tested in order. -/
def findMatchingIndices : Nat → List Json → Str → GoRes (List Nat)
  | 0, _, _ => .fuelOut
  | fuel + 1, arrayData, query =>
    if arrayData.isEmpty then .ok []
    else do
      let condition ← parseQueryCondition query
      goFilterIdxM (fun item => evaluateCondition fuel item condition) arrayData.enum

/-- Model of `evaluateCondition`: nested-array conditions, tilde values, then
stringified comparison with numeric-first ordering and glob patterns. -/
def evaluateCondition : Nat → Json → queryCondition → GoRes Bool
  | 0, _, _ => .fuelOut
  | fuel + 1, item, condition =>
    if goContains condition.field (strL ".#(") && goContains condition.field (strL ")") &&
        condition.value == strL "true" then
      evaluateNestedArrayQuery fuel item condition
    else if goHasPfx condition.value (strL "~") then
      if condition.field.isEmpty then
        .ok (evaluateTildeCondition item condition.operator condition.value)
      else
        .ok (evaluateTildeConditionWithContext item condition.field
          condition.operator condition.value)
    else
      let itemValue :=
        if condition.field.isEmpty then item else getFieldValue item condition.field
      let itemStr := sprintfV itemValue
      let conditionValue := condition.value
      if condition.operator == strL "==" then .ok (itemStr == conditionValue)
      else if condition.operator == strL "!=" then .ok (itemStr != conditionValue)
      else if condition.operator == strL ">" then .ok (goGreaterThan itemStr conditionValue)
      else if condition.operator == strL "<" then .ok (goLessThan itemStr conditionValue)
      else if condition.operator == strL ">=" then .ok (goGreaterEq itemStr conditionValue)
      else if condition.operator == strL "<=" then .ok (goLessEq itemStr conditionValue)
      else if condition.operator == strL "%" then
        matchPattern fuel itemStr conditionValue
      else if condition.operator == strL "!%" then do
        let matched ← matchPattern fuel itemStr conditionValue
        pure (!matched)
      else .ok false

/-- Model of `evaluateNestedArrayQuery`: `field.#(inner)` holds of an element
iff some inner element matches (`==`) or no inner element matches (`!=`). -/
def evaluateNestedArrayQuery : Nat → Json → queryCondition → GoRes Bool
  | 0, _, _ => .fuelOut
  | fuel + 1, item, condition =>
    match goIndexOf condition.field (strL ".#("),
        goLastIndexOf condition.field (strL ")") with
    | some queryStart, some queryEnd => do
      let fieldName := condition.field.take queryStart
      let nestedQuery ← goSlice condition.field (queryStart + 3) queryEnd
      match getFieldValue item fieldName with
      | .arr xs => do
        let nestedCondition ← parseQueryCondition nestedQuery
        let found ← goFirstMatchM
          (fun element => evaluateCondition fuel element nestedCondition) xs
        if found then pure (condition.operator == strL "==")
        else pure (condition.operator == strL "!=")
      | _ => pure false
    | _, _ => .ok false

/-- Model of `expandWildcard`: match object keys by glob, in sorted order for
determinism, then continue with any remaining segments. -/
def expandWildcard :
    Nat → Json → Str → List PathComponent → Nat → Str → GoRes (Option (List Str))
  | 0, _, _, _, _, _ => .fuelOut
  | fuel + 1, data, component, components, index, currentPath => do
    let results ←
      match data with
      | .obj fields => do
        let keys ← goFilterM (fun key => matchWildcard fuel key component)
          (fields.map (fun f => f.1))
        pure ((sortStrs keys).foldl
          (fun acc key => goAppendStr acc (appendPath currentPath key)) none)
      | _ => pure none
    if index + 1 < components.length then
      goAccumM
        (fun result =>
          expandSinglePath fuel (getValueAtPath data result)
            (joinPathComponents (components.drop (index + 1))) result)
        (results.getD []) none
    else pure results

termination_by structural fuel => fuel
/-- Model of `expandRegularField`: integer-parseable segments are array
indices (out of range prunes to an empty slice); all other segments are
object fields, emitted optimistically in terminal position. -/
def expandRegularField :
    Nat → Json → Str → List PathComponent → Nat → Str → GoRes (Option (List Str))
  | 0, _, _, _, _, _ => .fuelOut
  | fuel + 1, data, component, components, index, currentPath =>
    match goAtoi component with
    | some idx =>
      let indexPath := appendPath currentPath component
      if index + 1 < components.length then
        match data with
        | .arr xs =>
          if 0 ≤ idx ∧ idx < (xs.length : Int) then
            expandSinglePath fuel (xs.getD idx.toNat .null)
              (joinPathComponents (components.drop (index + 1))) indexPath
          else .ok (some [])
        | _ => .ok (some [])
      else
        match data with
        | .arr xs =>
          if 0 ≤ idx ∧ idx < (xs.length : Int) then .ok (some [indexPath])
          else .ok (some [])
        | _ => .ok (some [])
    | none =>
      let fieldPath := appendPath currentPath component
      if index + 1 < components.length then
        expandSinglePath fuel (getFieldValue data component)
          (joinPathComponents (components.drop (index + 1))) fieldPath
      else
        -- the source checks field existence here but returns the constructed
        -- path in either case
        .ok (some [fieldPath])

termination_by structural fuel => fuel
end

/-- Model of `ExpandPath`, the public entry point.  `json.Unmarshal` is
modelled by the `Option Json` argument: `none` means the document bytes do
not parse as JSON, in which case the source returns a nil slice — unless the
path is empty, which is answered before parsing. -/
def ExpandPath (fuel : Nat) (jsonData : Option Json) (path : Str) :
    GoRes (Option (List Str)) :=
  if path.isEmpty then .ok (some [[]])
  else
    match jsonData with
    | none => .ok none
    | some data => expandPathWithData fuel data path

/-! Concrete documents used by the theorems below. -/

/-- The document `a: [x:1, x:2, x:3]` from the specification's concrete
scenarios. -/
def aDoc : Json :=
  .obj [(strL "a", .arr [.obj [(strL "x", .num 1)], .obj [(strL "x", .num 2)],
    .obj [(strL "x", .num 3)]])]

/-- The `friends`/`children` fragment of the test fixture document. -/
def sharedDoc : Json :=
  .obj [
    (strL "name", .obj [(strL "first", .str (strL "Tom")), (strL "last", .str (strL "Anderson"))]),
    (strL "age", .num 37),
    (strL "children", .arr [.str (strL "Sara"), .str (strL "Alex"), .str (strL "Jack")]),
    (strL "fav.movie", .str (strL "Deer Hunter")),
    (strL "friends", .arr [
      .obj [(strL "first", .str (strL "Dale")), (strL "last", .str (strL "Murphy")),
            (strL "age", .num 44),
            (strL "nets", .arr [.str (strL "ig"), .str (strL "fb"), .str (strL "tw")])],
      .obj [(strL "first", .str (strL "Roger")), (strL "last", .str (strL "Craig")),
            (strL "age", .num 68),
            (strL "nets", .arr [.str (strL "fb"), .str (strL "tw")])],
      .obj [(strL "first", .str (strL "Jane")), (strL "last", .str (strL "Murphy")),
            (strL "age", .num 47),
            (strL "nets", .arr [.str (strL "ig"), .str (strL "tw")])]
    ])
  ]

/-- A document whose only object key is the numeral `0`. -/
def zeroKeyDoc : Json := .obj [(strL "0", .num 1)]

/-! Shared helper lemmas. -/

/-- Folding single-path appends over a list builds the mapped list (and keeps
a nil accumulator nil exactly when the list is empty). -/
theorem foldl_goAppendStr_eq (f : Nat → Str) :
    ∀ (l : List Nat) (acc : Option (List Str)),
      l.foldl (fun a i => goAppendStr a (f i)) acc =
        if l.isEmpty then acc else some (acc.getD [] ++ l.map f) := by
  intro l
  induction l with
  | nil => intro acc; rfl
  | cons x xs ih =>
    intro acc
    rw [List.foldl_cons, ih (goAppendStr acc (f x))]
    cases xs with
    | nil => simp [goAppendStr]
    | cons y ys => simp [goAppendStr, List.append_assoc]

/-- The guard the source puts in front of the numeric-token count is
redundant: an empty accumulated path has no integer-parseable dot-token. -/
theorem numericCount_empty_guard (currentPath : Str) :
    (if currentPath.isEmpty then 0
      else ((goSplit currentPath (strL ".")).filter
        (fun part => (goAtoi part).isSome)).length) =
      ((goSplit currentPath (strL ".")).filter
        (fun part => (goAtoi part).isSome)).length := by
  cases currentPath with
  | nil => rfl
  | cons c t => rfl

/-! ### Claim C9 -/

/-- C9: for every parse outcome of the document bytes — including bytes that
do not parse as JSON (`jsonData = none`) — `ExpandPath` answers the empty
path with the single-element result `[""]` before consulting the document,
so the malformed-JSON failure signal (a nil slice) is never reported. -/
theorem c9_empty_path_result (fuel : Nat) (jsonData : Option Json) :
    ExpandPath fuel jsonData [] = .ok (some [[]]) := rfl

/-! ### Claim C3 -/

/-- C3 fails on the code: on the valid JSON document and the path `a)#(`
— a path string with garbled query syntax — the expansion does not return a
result but panics (the source slices `component[queryStart+2 : queryEnd]`
with `queryStart+2 > queryEnd`, a slice-bounds panic). -/
theorem c3_malformed_path_panics :
    ExpandPath 100 (some (Json.obj [])) (strL "a)#(") = .panicked := rfl

/-! ### Claim C2 -/

/-- C2 fails on the code as stated: on valid JSON, a multipath whose every
component is a `!`-literal returns a nil slice, not an empty non-nil one. -/
theorem c2_counterexample :
    ExpandPath 100 (some (Json.obj [])) (strL "[!5]") = .ok none := rfl

/-- C2 amended: a nonempty path on unparseable bytes yields nil, and on valid
JSON any path that is not a `[...]`/brace multipath grouping and carries no
`,!` literal suffix never yields nil — but multipath groupings can (see
`c2_counterexample`), so nil is not equivalent to parse failure. -/
theorem c2_nil_iff_parse_failure_corrected :
    (∀ (fuel : Nat) (path : Str), path ≠ [] → ExpandPath fuel none path = .ok none) ∧
    (∀ (fuel : Nat) (data : Json) (path : Str),
      (goHasPfx path (strL "[") && goHasSfx path (strL "]")) = false →
      (goHasPfx path [lbrace] && goHasSfx path [rbrace]) = false →
      goContains path (strL ",!") = false →
      ExpandPath fuel (some data) path ≠ .ok none) := by
  constructor
  · intro fuel path h
    cases path with
    | nil => exact absurd rfl h
    | cons c t => rfl
  · intro fuel data path h1 h2 h3
    cases path with
    | nil => intro h; exact Option.noConfusion (GoRes.ok.inj h)
    | cons c t =>
      show expandPathWithData fuel data (c :: t) ≠ .ok none
      cases fuel with
      | zero => intro h; exact GoRes.noConfusion h
      | succ fuel =>
        simp only [expandPathWithData, List.isEmpty_cons, h1, h2, h3,
          Bool.false_eq_true, if_false]
        split
        · intro h; exact Option.noConfusion (GoRes.ok.inj h)
        · cases hE : expandSinglePath fuel data (c :: t) [] with
          | ok r =>
            cases r with
            | none =>
              simp only [bind, hE]
              intro h
              exact Option.noConfusion (GoRes.ok.inj h)
            | some l =>
              simp only [bind, hE]
              intro h
              exact Option.noConfusion (GoRes.ok.inj h)
          | panicked => simp only [bind, hE]; intro h; exact GoRes.noConfusion h
          | fuelOut => simp only [bind, hE]; intro h; exact GoRes.noConfusion h

/-- Witness for `c2_nil_iff_parse_failure_corrected` at concrete inputs. -/
theorem c2_witness :
    ExpandPath 5 none (strL "a") = .ok none ∧
    ExpandPath 5 (some (Json.obj [])) (strL "a") ≠ .ok none :=
  ⟨c2_nil_iff_parse_failure_corrected.1 5 (strL "a") (by decide),
   c2_nil_iff_parse_failure_corrected.2 5 (Json.obj []) (strL "a")
     (by decide) (by decide) (by decide)⟩

/-! ### Claim C4 -/

/-- C4 fails on the code for missing object fields: on the empty object, the
missing field `a` in non-terminal position does not prune — the branch still
contributes the constructed path `a.c`. -/
theorem c4_counterexample :
    ExpandPath 100 (some (Json.obj [])) (strL "a.c") = .ok (some [strL "a.c"]) := rfl

/-- C4 amended: an out-of-range (or negative) array index in a non-terminal
segment does contribute zero paths: whenever the segment parses as an integer
and the current value is not an array with that index in range, the evaluator
returns the empty slice. -/
theorem c4_out_of_range_index_prunes (fuel : Nat) (data : Json) (component : Str)
    (components : List PathComponent) (index : Nat) (currentPath : Str) (idx : Int)
    (hA : goAtoi component = some idx)
    (hNT : index + 1 < components.length)
    (hOOB : ∀ xs, data = Json.arr xs → ¬(0 ≤ idx ∧ idx < (xs.length : Int))) :
    expandRegularField (fuel + 1) data component components index currentPath =
      .ok (some []) := by
  simp only [expandRegularField, hA, if_pos hNT]
  cases data with
  | arr xs => simp only [if_neg (hOOB xs rfl)]
  | null => rfl
  | bool b => rfl
  | num n => rfl
  | str s => rfl
  | obj fields => rfl

/-- Witness for `c4_out_of_range_index_prunes` at a concrete input. -/
theorem c4_witness :
    expandRegularField 1 (Json.arr []) (strL "5")
      [⟨strL "5", []⟩, ⟨strL "x", strL "."⟩] 0 [] = .ok (some []) :=
  c4_out_of_range_index_prunes 0 (Json.arr []) (strL "5")
    [⟨strL "5", []⟩, ⟨strL "x", strL "."⟩] 0 [] 5 (by decide) (by decide)
    (by intro xs h; cases h; decide)

/-! ### Claim C5 -/

/-- C5: when the last segment is the pure length marker `#` and the current
value is an array, the evaluator expands into one path per array element
exactly when the accumulated path contains at least 3 integer-parseable
dot-separated tokens, and otherwise returns the single literal `#` path. -/
theorem c5_trailing_hash_heuristic (fuel : Nat) (data : Json)
    (components : List PathComponent) (index : Nat) (currentPath : Str)
    (pc : PathComponent) (xs : List Json)
    (hGet : components.get? index = some pc)
    (hComp : pc.Component = strL "#")
    (hLast : index + 1 = components.length)
    (hData : data = Json.arr xs) :
    (3 ≤ ((goSplit currentPath (strL ".")).filter
        (fun part => (goAtoi part).isSome)).length →
      expandPathComponent (fuel + 1) data components index currentPath =
        .ok (if xs.isEmpty then none
          else some ((List.range xs.length).map
            (fun i => appendPath currentPath (natStr i))))) ∧
    (((goSplit currentPath (strL ".")).filter
        (fun part => (goAtoi part).isSome)).length < 3 →
      expandPathComponent (fuel + 1) data components index currentPath =
        .ok (some [appendPath currentPath (strL "#")])) := by
  subst hData
  have hbeq : (index + 1 == components.length) = true := by simp [hLast]
  have e1 : goHasPfx (strL "#") (strL "~") = false := rfl
  have e2 : goContains (strL "#") (strL "#(") = false := rfl
  have e3 : goContains (strL "#") (strL "#[") = false := rfl
  have e4 : (strL "#" == strL "#") = true := rfl
  constructor
  · intro h3
    simp only [expandPathComponent, hGet, hComp, e1, e2, e3, e4,
      Bool.false_eq_true, Bool.false_and, Bool.or_self, if_false, if_true,
      hbeq, numericCount_empty_guard, if_pos h3, foldl_goAppendStr_eq]
    cases xs with
    | nil => rfl
    | cons y ys => simp
  · intro h3
    simp only [expandPathComponent, hGet, hComp, e1, e2, e3, e4,
      Bool.false_eq_true, Bool.false_and, Bool.or_self, if_false, if_true,
      hbeq, numericCount_empty_guard]
    rw [if_neg (by omega :
      ¬3 ≤ ((goSplit currentPath (strL ".")).filter
        (fun part => (goAtoi part).isSome)).length)]

/-- Witness for `c5_trailing_hash_heuristic` at concrete inputs: under the
accumulated path `0.0.0` (three numeric tokens) the array expands per index;
under `a.b` it stays a literal `#` path. -/
theorem c5_witness :
    expandPathComponent 1 (Json.arr [Json.null]) [⟨strL "#", []⟩] 0 (strL "0.0.0") =
      .ok (some [strL "0.0.0.0"]) ∧
    expandPathComponent 1 (Json.arr [Json.null]) [⟨strL "#", []⟩] 0 (strL "a.b") =
      .ok (some [strL "a.b.#"]) :=
  ⟨(c5_trailing_hash_heuristic 0 (Json.arr [Json.null]) [⟨strL "#", []⟩] 0
      (strL "0.0.0") ⟨strL "#", []⟩ [Json.null] rfl rfl rfl rfl).1 (by decide),
   (c5_trailing_hash_heuristic 0 (Json.arr [Json.null]) [⟨strL "#", []⟩] 0
      (strL "a.b") ⟨strL "#", []⟩ [Json.null] rfl rfl rfl rfl).2 (by decide)⟩

/-! ### Claim C10 -/

/-- C10: when a non-final segment is the pure length marker `#`, the current
value is an array, and the next segment is preceded by the pipe separator,
the evaluator returns the empty slice: no per-index fan-out and no paths,
whatever the following segment is. -/
theorem c10_hash_pipe_empty (fuel : Nat) (data : Json)
    (components : List PathComponent) (index : Nat) (currentPath : Str)
    (pc nextComp : PathComponent) (xs : List Json)
    (hGet : components.get? index = some pc)
    (hComp : pc.Component = strL "#")
    (hNotLast : index + 1 ≠ components.length)
    (hNext : components.get? (index + 1) = some nextComp)
    (hSep : nextComp.Separator = strL "|")
    (hData : data = Json.arr xs) :
    expandPathComponent (fuel + 1) data components index currentPath =
      .ok (some []) := by
  subst hData
  have hbeq : (index + 1 == components.length) = false := by
    simp [hNotLast]
  have e1 : goHasPfx (strL "#") (strL "~") = false := rfl
  have e2 : goContains (strL "#") (strL "#(") = false := rfl
  have e3 : goContains (strL "#") (strL "#[") = false := rfl
  have e4 : (strL "#" == strL "#") = true := rfl
  have e5 : (strL "|" == strL "|") = true := rfl
  simp only [expandPathComponent, hGet, hComp, e1, e2, e3, e4,
    Bool.false_eq_true, Bool.false_and, Bool.or_self, if_false, if_true,
    hbeq, hNext, hSep, e5]

/-- Witness for `c10_hash_pipe_empty` at a concrete input. -/
theorem c10_witness :
    expandPathComponent 1 (Json.arr [Json.num 1])
      [⟨strL "#", []⟩, ⟨strL "x", strL "|"⟩] 0 [] = .ok (some []) :=
  c10_hash_pipe_empty 0 (Json.arr [Json.num 1])
    [⟨strL "#", []⟩, ⟨strL "x", strL "|"⟩] 0 [] ⟨strL "#", []⟩ ⟨strL "x", strL "|"⟩
    [Json.num 1] rfl rfl (by decide) rfl rfl rfl

/-! Monad computation lemmas for `GoRes`. -/

@[simp] theorem GoRes_bind_ok {α β : Type} (a : α) (f : α → GoRes β) :
    (GoRes.ok a >>= f) = f a := rfl

@[simp] theorem GoRes_bind_panicked {α β : Type} (f : α → GoRes β) :
    ((GoRes.panicked : GoRes α) >>= f) = .panicked := rfl

@[simp] theorem GoRes_bind_fuelOut {α β : Type} (f : α → GoRes β) :
    ((GoRes.fuelOut : GoRes α) >>= f) = .fuelOut := rfl

@[simp] theorem GoRes_pure_eq {α : Type} (a : α) : (pure a : GoRes α) = .ok a := rfl

/-! String-scan lemmas used to relate a query segment with its
trailing-`#` variant. -/

/-- A prefix of `s` is also a prefix of `s ++ t`. -/
theorem goHasPfx_append (s t p : Str) (h : goHasPfx s p = true) :
    goHasPfx (s ++ t) p = true := by
  induction p generalizing s with
  | nil => simp [goHasPfx]
  | cons c cs ih =>
    cases s with
    | nil => exact absurd h (by simp [goHasPfx])
    | cons a as =>
      simp only [goHasPfx, Bool.and_eq_true] at h
      simp only [List.cons_append, goHasPfx, Bool.and_eq_true, List.append_eq]
      exact ⟨h.1, ih as h.2⟩

/-- A prefix fits within the string. -/
theorem goHasPfx_length (s p : Str) (h : goHasPfx s p = true) :
    p.length ≤ s.length := by
  induction p generalizing s with
  | nil => simp
  | cons c cs ih =>
    cases s with
    | nil => exact absurd h (by simp [goHasPfx])
    | cons a as =>
      simp only [goHasPfx, Bool.and_eq_true] at h
      simpa [List.length_cons] using Nat.succ_le_succ (ih as h.2)

/-- Prefix testing only inspects the first `p.length` characters. -/
theorem goHasPfx_append_of_le (s t p : Str) (h : p.length ≤ s.length) :
    goHasPfx (s ++ t) p = goHasPfx s p := by
  induction p generalizing s with
  | nil => simp [goHasPfx]
  | cons c cs ih =>
    cases s with
    | nil => simp at h
    | cons a as =>
      simp only [List.cons_append, goHasPfx, List.append_eq]
      rw [ih as (by simpa [List.length_cons, Nat.succ_le_succ_iff] using h)]

/-- A found occurrence fits within the string. -/
theorem goIndexOf_some_fits (s sub : Str) (i : Nat) (h : goIndexOf s sub = some i) :
    i + sub.length ≤ s.length := by
  induction s generalizing i with
  | nil =>
    cases sub with
    | nil =>
      simp only [goIndexOf, goHasPfx, if_true] at h
      cases h
      simp
    | cons c cs =>
      simp only [goIndexOf, goHasPfx, Bool.false_eq_true, if_false] at h
      exact Option.noConfusion h
  | cons a t ih =>
    simp only [goIndexOf] at h
    by_cases hp : goHasPfx (a :: t) sub = true
    · rw [if_pos hp] at h
      cases h
      simpa using goHasPfx_length _ _ hp
    · rw [if_neg hp] at h
      cases hI : goIndexOf t sub with
      | none => rw [hI] at h; exact Option.noConfusion h
      | some j =>
        rw [hI] at h
        simp only [Option.map_some'] at h
        cases h
        have := ih j hI
        simp only [List.length_cons]
        omega

/-- The first occurrence in `s` is the first occurrence in `s ++ t`. -/
theorem goIndexOf_append (s t sub : Str) (i : Nat) (h : goIndexOf s sub = some i) :
    goIndexOf (s ++ t) sub = some i := by
  induction s generalizing i with
  | nil =>
    cases sub with
    | nil =>
      simp only [goIndexOf, goHasPfx, if_true] at h
      cases h
      cases t with
      | nil => rfl
      | cons x xs => simp [goIndexOf, goHasPfx]
    | cons c cs =>
      simp only [goIndexOf, goHasPfx, Bool.false_eq_true, if_false] at h
      exact Option.noConfusion h
  | cons a s1 ih =>
    simp only [goIndexOf] at h
    rw [List.cons_append]
    simp only [goIndexOf]
    by_cases hp : goHasPfx (a :: s1) sub = true
    · rw [if_pos hp] at h
      cases h
      rw [if_pos (by simpa [List.cons_append] using goHasPfx_append (a :: s1) t sub hp)]
    · rw [if_neg hp] at h
      cases hI : goIndexOf s1 sub with
      | none => rw [hI] at h; exact Option.noConfusion h
      | some j =>
        rw [hI] at h
        simp only [Option.map_some'] at h
        cases h
        have hfits : j + sub.length ≤ s1.length := goIndexOf_some_fits s1 sub j hI
        have hle : sub.length ≤ (a :: s1).length := by
          simp only [List.length_cons]; omega
        rw [if_neg (by
          have hres := goHasPfx_append_of_le (a :: s1) t sub hle
          simp only [List.cons_append] at hres
          rw [hres]
          exact hp)]
        rw [ih j hI]
        rfl

/-- Appending a different character does not create a last occurrence. -/
theorem goLastIndexOf_single_append_none (s : Str) (a b : Char)
    (hne : (b == a) = false) (h : goLastIndexOf s [a] = none) :
    goLastIndexOf (s ++ [b]) [a] = none := by
  induction s with
  | nil => simp [goLastIndexOf, goHasPfx, hne]
  | cons c t ih =>
    simp only [goLastIndexOf] at h
    cases hT : goLastIndexOf t [a] with
    | some j => rw [hT] at h; exact Option.noConfusion h
    | none =>
      rw [hT] at h
      rw [List.cons_append]
      simp only [goLastIndexOf, ih hT]
      by_cases hp : goHasPfx (c :: t) [a] = true
      · rw [if_pos hp] at h; exact Option.noConfusion h
      · rw [if_neg hp] at h
        rw [if_neg (by
          simp only [goHasPfx, Bool.and_eq_true] at hp ⊢
          intro hcontra
          exact hp ⟨hcontra.1, trivial⟩)]

/-- Appending a different character preserves the last occurrence. -/
theorem goLastIndexOf_single_append (s : Str) (a b : Char) (i : Nat)
    (hne : (b == a) = false) (h : goLastIndexOf s [a] = some i) :
    goLastIndexOf (s ++ [b]) [a] = some i := by
  induction s generalizing i with
  | nil => simp [goLastIndexOf] at h
  | cons c t ih =>
    simp only [goLastIndexOf] at h
    rw [List.cons_append]
    simp only [goLastIndexOf]
    cases hT : goLastIndexOf t [a] with
    | some j =>
      rw [hT] at h
      cases h
      rw [ih j hT]
    | none =>
      rw [hT] at h
      rw [goLastIndexOf_single_append_none t a b hne hT]
      by_cases hp : goHasPfx (c :: t) [a] = true
      · rw [if_pos hp] at h
        cases h
        rw [if_pos (by
          simp only [goHasPfx, Bool.and_eq_true] at hp ⊢
          exact ⟨hp.1, trivial⟩)]
      · rw [if_neg hp] at h; exact Option.noConfusion h

/-- Appending a slice that is nil or produced by `goAppendStr` folding: the
first-match result is the one-element truncation of the all-match result. -/
theorem bind_first_of_all (X : GoRes (List Nat)) (f : Nat → Str)
    (r : Option (List Str))
    (h : (X >>= fun mi =>
        GoRes.ok (mi.foldl (fun acc idx => goAppendStr acc (f idx)) none)) = .ok r) :
    (X >>= fun mi =>
        (match mi with
          | [] => GoRes.ok (none : Option (List Str))
          | idx0 :: _ => GoRes.ok (some [f idx0]))) =
      .ok (r.map (fun l => l.take 1)) := by
  cases X with
  | ok mi =>
    simp only [GoRes_bind_ok] at h ⊢
    cases h
    cases mi with
    | nil => rfl
    | cons i rest =>
      rw [foldl_goAppendStr_eq]
      simp
  | panicked => exact absurd h (by simp only [GoRes_bind_panicked]; intro hc; exact GoRes.noConfusion hc)
  | fuelOut => exact absurd h (by simp only [GoRes_bind_fuelOut]; intro hc; exact GoRes.noConfusion hc)

/-- The kept indices are a sublist of the scanned indices. -/
theorem goFilterIdxM_sublist (f : Json → GoRes Bool) :
    ∀ (l : List (Nat × Json)) (r : List Nat),
      goFilterIdxM f l = .ok r → r.Sublist (l.map Prod.fst) := by
  intro l
  induction l with
  | nil =>
    intro r h
    cases h
    simp
  | cons p rest ih =>
    intro r h
    obtain ⟨i, x⟩ := p
    simp only [goFilterIdxM] at h
    cases hb : f x with
    | ok b =>
      rw [hb] at h
      simp only [GoRes_bind_ok] at h
      cases hr : goFilterIdxM f rest with
      | ok r1 =>
        rw [hr] at h
        simp only [GoRes_bind_ok, GoRes_pure_eq] at h
        cases h
        cases b with
        | true => simpa using List.Sublist.cons₂ i (ih r1 hr)
        | false => simpa using List.Sublist.cons i (ih r1 hr)
      | panicked => rw [hr] at h; exact absurd h (by intro hc; exact GoRes.noConfusion hc)
      | fuelOut => rw [hr] at h; exact absurd h (by intro hc; exact GoRes.noConfusion hc)
    | panicked => rw [hb] at h; exact absurd h (by intro hc; exact GoRes.noConfusion hc)
    | fuelOut => rw [hb] at h; exact absurd h (by intro hc; exact GoRes.noConfusion hc)

/-- Matching indices are collected in strictly ascending order. -/
theorem findMatchingIndices_pairwise (fuel : Nat) (arrayData : List Json)
    (q : Str) (mi : List Nat)
    (h : findMatchingIndices fuel arrayData q = .ok mi) :
    List.Pairwise (· < ·) mi := by
  cases fuel with
  | zero => exact absurd h (by intro hc; exact GoRes.noConfusion hc)
  | succ fuel =>
    simp only [findMatchingIndices] at h
    by_cases he : arrayData.isEmpty = true
    · rw [if_pos he] at h
      cases h
      exact List.Pairwise.nil
    · rw [if_neg he] at h
      cases hp : parseQueryCondition q with
      | ok cond =>
        rw [hp] at h
        simp only [GoRes_bind_ok] at h
        have hsub := goFilterIdxM_sublist _ _ _ h
        rw [List.enum_map_fst] at hsub
        exact List.Pairwise.sublist hsub (List.pairwise_lt_range arrayData.length)
      | panicked => rw [hp] at h; exact absurd h (by intro hc; exact GoRes.noConfusion hc)
      | fuelOut => rw [hp] at h; exact absurd h (by intro hc; exact GoRes.noConfusion hc)

/-! ### Claim C6 -/

/-- C6: a filter query whose parsed operator is a pattern operator (`%` or
`!%`) and whose segment has no suffix after the closing parenthesis expands
exactly like the same segment with a trailing `#`: both return all matching
indices' paths. -/
theorem c6_pattern_operator_all_matches (fuel : Nat) (data : Json) (c : Str)
    (components : List PathComponent) (index : Nat) (currentPath : Str)
    (qs qe : Nat) (cond : queryCondition)
    (hI : goIndexOf c (strL "#(") = some qs)
    (hL : goLastIndexOf c (strL ")") = some qe)
    (hSlice : qs + 2 ≤ qe)
    (hEnd : qe + 1 = c.length)
    (hcond : parseQueryCondition ((c.take qe).drop (qs + 2)) = .ok cond)
    (hPat : (cond.operator == strL "%" || cond.operator == strL "!%") = true) :
    expandQuery (fuel + 1) data c components index currentPath =
      expandQuery (fuel + 1) data (c ++ strL "#") components index currentPath := by
  have hqe_le : qe ≤ c.length := by omega
  have hC : goContains c (strL "#(") = true := by simp [goContains, hI]
  have hI2 : goIndexOf (c ++ strL "#") (strL "#(") = some qs :=
    goIndexOf_append c (strL "#") _ qs hI
  have hL2 : goLastIndexOf (c ++ strL "#") (strL ")") = some qe :=
    goLastIndexOf_single_append c ')' '#' qe (by decide) hL
  have hC2 : goContains (c ++ strL "#") (strL "#(") = true := by simp [goContains, hI2]
  have hS : goSlice c (qs + 2) qe = .ok ((c.take qe).drop (qs + 2)) := by
    rw [goSlice, if_pos ⟨hSlice, hqe_le⟩]
  have hS2 : goSlice (c ++ strL "#") (qs + 2) qe = .ok ((c.take qe).drop (qs + 2)) := by
    rw [goSlice, if_pos ⟨hSlice, by simp only [List.length_append]; omega⟩,
      List.take_append_of_le_length hqe_le]
  have hD : c.drop (qe + 1) = [] := List.drop_eq_nil_of_le (by omega)
  have hD2 : (c ++ strL "#").drop (qe + 1) = strL "#" := by
    rw [hEnd]; exact List.drop_left c (strL "#")
  have hT2 : (c ++ strL "#").take qs = c.take qs :=
    List.take_append_of_le_length (by omega)
  simp only [expandQuery, hC, hC2, eq_self_iff_true, if_true, hI, hI2, hL, hL2,
    hS, hS2, GoRes_bind_ok, hD, hD2, hT2, hcond, hPat, Bool.or_true,
    show goHasPfx [] (strL "#") = false from rfl,
    show goHasPfx (strL "#") (strL "#") = true from rfl,
    show ((strL "#" : Str) == strL "#") = true from rfl,
    show (List.isEmpty ([] : Str)) = true from rfl,
    Bool.false_eq_true, if_false]

/-- Witness for `c6_pattern_operator_all_matches` at the specification's
`children` example: with and without the trailing `#`, the pattern query
returns the same list. -/
theorem c6_witness :
    expandQuery 50 (Json.arr [.str (strL "Sara"), .str (strL "Alex"), .str (strL "Jack")])
      (strL "#(%\"*a*\")") [⟨strL "#(%\"*a*\")", []⟩] 0 (strL "children") =
    expandQuery 50 (Json.arr [.str (strL "Sara"), .str (strL "Alex"), .str (strL "Jack")])
      (strL "#(%\"*a*\")#") [⟨strL "#(%\"*a*\")", []⟩] 0 (strL "children") :=
  c6_pattern_operator_all_matches 49
    (Json.arr [.str (strL "Sara"), .str (strL "Alex"), .str (strL "Jack")])
    (strL "#(%\"*a*\")") [⟨strL "#(%\"*a*\")", []⟩] 0 (strL "children")
    0 8 ⟨[], strL "%", strL "*a*"⟩ rfl rfl (by omega) rfl rfl rfl

@[simp] theorem GoRes_bind_pure {α : Type} (x : GoRes α) : (x >>= pure) = x := by
  cases x <;> rfl

/-! ### Claim C1 -/

/-- C1: for a `#(...)` filter segment with no suffix after the closing
parenthesis and a non-pattern operator, the expansion emits a path only for
the first matching index — its result is the one-element truncation of the
trailing-`#` variant's result, which lists all matching indices in ascending
order; in particular, on `a:[x:1,x:2,x:3]`, `a.#(x>1).x` expands to exactly
`["a.1.x"]` while `a.#(x>1)#.x` expands to `["a.1.x","a.2.x"]`. -/
theorem c1_query_first_match_vs_all (fuel : Nat) (data : Json) (c : Str)
    (components : List PathComponent) (index : Nat) (currentPath : Str)
    (qs qe : Nat) (cond : queryCondition)
    (hI : goIndexOf c (strL "#(") = some qs)
    (hL : goLastIndexOf c (strL ")") = some qe)
    (hSlice : qs + 2 ≤ qe)
    (hEnd : qe + 1 = c.length)
    (hcond : parseQueryCondition ((c.take qe).drop (qs + 2)) = .ok cond)
    (hNP : (cond.operator == strL "%" || cond.operator == strL "!%") = false)
    (hNoHash : goHasSfx c (strL "#") = false)
    (hNoTail : ¬(index + 1 < components.length)) :
    (∀ r, expandQuery (fuel + 1) data (c ++ strL "#") components index currentPath = .ok r →
      expandQuery (fuel + 1) data c components index currentPath =
        .ok (r.map (fun l => l.take 1))) ∧
    (∀ (arrayData : List Json) (q : Str) (mi : List Nat),
      findMatchingIndices fuel arrayData q = .ok mi → List.Pairwise (· < ·) mi) ∧
    ExpandPath 100 (some aDoc) (strL "a.#(x>1).x") = .ok (some [strL "a.1.x"]) ∧
    ExpandPath 100 (some aDoc) (strL "a.#(x>1)#.x") =
      .ok (some [strL "a.1.x", strL "a.2.x"]) := by
  refine ⟨?_,
    fun arrayData q mi h => findMatchingIndices_pairwise fuel arrayData q mi h,
    rfl, rfl⟩
  have hqe_le : qe ≤ c.length := by omega
  have hC : goContains c (strL "#(") = true := by simp [goContains, hI]
  have hI2 : goIndexOf (c ++ strL "#") (strL "#(") = some qs :=
    goIndexOf_append c (strL "#") _ qs hI
  have hL2 : goLastIndexOf (c ++ strL "#") (strL ")") = some qe :=
    goLastIndexOf_single_append c ')' '#' qe (by decide) hL
  have hC2 : goContains (c ++ strL "#") (strL "#(") = true := by simp [goContains, hI2]
  have hS : goSlice c (qs + 2) qe = .ok ((c.take qe).drop (qs + 2)) := by
    rw [goSlice, if_pos ⟨hSlice, hqe_le⟩]
  have hS2 : goSlice (c ++ strL "#") (qs + 2) qe = .ok ((c.take qe).drop (qs + 2)) := by
    rw [goSlice, if_pos ⟨hSlice, by simp only [List.length_append]; omega⟩,
      List.take_append_of_le_length hqe_le]
  have hD : c.drop (qe + 1) = [] := List.drop_eq_nil_of_le (by omega)
  have hD2 : (c ++ strL "#").drop (qe + 1) = strL "#" := by
    rw [hEnd]; exact List.drop_left c (strL "#")
  have hT2 : (c ++ strL "#").take qs = c.take qs :=
    List.take_append_of_le_length (by omega)
  simp only [expandQuery, hC, hC2, eq_self_iff_true, if_true, hI, hI2, hL, hL2,
    hS, hS2, GoRes_bind_ok, hD, hD2, hT2, hcond, hNP, hNoHash, Bool.or_self,
    show goHasPfx [] (strL "#") = false from rfl,
    show goHasPfx (strL "#") (strL "#") = true from rfl,
    show ((strL "#" : Str) == strL "#") = true from rfl,
    show (List.isEmpty ([] : Str)) = true from rfl,
    Bool.false_eq_true, if_false, if_neg hNoTail, GoRes_bind_pure]
  exact fun r h => bind_first_of_all _ _ r h

/-- Witness for `c1_query_first_match_vs_all` at the claim's document. -/
theorem c1_witness :
    expandQuery 50
      (Json.arr [.obj [(strL "x", .num 1)], .obj [(strL "x", .num 2)],
        .obj [(strL "x", .num 3)]])
      (strL "#(x>1)") [⟨strL "#(x>1)", []⟩] 0 (strL "a") = .ok (some [strL "a.1"]) :=
  (c1_query_first_match_vs_all 49
    (Json.arr [.obj [(strL "x", .num 1)], .obj [(strL "x", .num 2)],
      .obj [(strL "x", .num 3)]])
    (strL "#(x>1)") [⟨strL "#(x>1)", []⟩] 0 (strL "a") 0 5
    ⟨strL "x", strL ">", strL "1"⟩ rfl rfl (by omega) rfl rfl rfl rfl
    (by decide)).1 (some [strL "a.1", strL "a.2"]) rfl

/-! Plain alphabetic tokens: infrastructure for the literal-path
fixed-point and separator-equivalence theorems. -/

/-- A plain field-name character: alphabetic (and, recorded for convenient
reuse, not a digit). -/
def plainChar (ch : Char) : Bool := ch.isAlpha && !ch.isDigit

/-- A plain field-name token: nonempty and made of plain characters only. -/
def plainTok (t : Str) : Bool := !t.isEmpty && t.all plainChar

theorem plainChar_beq_false (ch d : Char) (h : plainChar ch = true)
    (hd : plainChar d = false) : (ch == d) = false := by
  refine beq_eq_false_iff_ne.mpr ?_
  intro he
  subst he
  rw [h] at hd
  exact Bool.noConfusion hd

theorem not_mem_plain (t : Str) (d : Char) (h : t.all plainChar = true)
    (hd : plainChar d = false) : d ∉ t := by
  intro hm
  have := List.all_eq_true.mp h d hm
  rw [this] at hd
  exact Bool.noConfusion hd

theorem goIndexOf_head_mem (s : Str) (c0 : Char) (cs : Str) (i : Nat)
    (h : goIndexOf s (c0 :: cs) = some i) : c0 ∈ s := by
  induction s generalizing i with
  | nil =>
    simp only [goIndexOf, goHasPfx, Bool.false_eq_true, if_false] at h
    exact Option.noConfusion h
  | cons a t ih =>
    simp only [goIndexOf] at h
    by_cases hp : goHasPfx (a :: t) (c0 :: cs) = true
    · simp only [goHasPfx, Bool.and_eq_true] at hp
      have : a = c0 := eq_of_beq hp.1
      subst this
      exact List.mem_cons_self a t
    · rw [if_neg hp] at h
      cases hI : goIndexOf t (c0 :: cs) with
      | none => rw [hI] at h; exact Option.noConfusion h
      | some j => exact List.mem_cons_of_mem a (ih j hI)

theorem goContains_false_of_not_mem (s : Str) (c0 : Char) (cs : Str)
    (h : c0 ∉ s) : goContains s (c0 :: cs) = false := by
  cases hI : goIndexOf s (c0 :: cs) with
  | none => simp [goContains, hI]
  | some i => exact absurd (goIndexOf_head_mem s c0 cs i hI) h

theorem goHasPfx_cons_single (ch : Char) (t : Str) (d : Char) :
    goHasPfx (ch :: t) [d] = (ch == d) := by
  simp [goHasPfx]

theorem goAtoi_plain_none (ch : Char) (rest : Str)
    (h1 : ch.isAlpha = true) (h2 : ch.isDigit = false) :
    goAtoi (ch :: rest) = none := by
  have hdig : digitsToNat (ch :: rest) = none := by
    simp [digitsToNat, h2]
  unfold goAtoi
  split
  · next r heq =>
    cases heq
    exact absurd h1 (by decide)
  · next r heq =>
    cases heq
    exact absurd h1 (by decide)
  · next heq1 heq2 =>
    rw [hdig]
/-- Join tokens with the given separator characters (defaulting to dots once
the separator list runs out). -/
def sepJoin : List Str → List Char → Str
  | [], _ => []
  | [t], _ => t
  | t :: r :: rs, [] => t ++ '.' :: sepJoin (r :: rs) []
  | t :: r :: rs, d :: ds => t ++ d :: sepJoin (r :: rs) ds

/-- Join tokens with dots. -/
def dotJoin (toks : List Str) : Str := sepJoin toks []

/-- Consuming a run of plain characters accumulates them into the current
segment without splitting. -/
theorem parseAux_consume_plain (t : Str) (h1 : t.all plainChar = true) :
    ∀ (rest : Str) (lastSep cur : Str),
      parsePathComponentsAux (t ++ rest) false false 0 lastSep cur =
        parsePathComponentsAux rest false false 0 lastSep (cur ++ t) := by
  induction t with
  | nil => intro rest lastSep cur; simp
  | cons ch t' ih =>
    intro rest lastSep cur
    simp only [List.all_cons, Bool.and_eq_true] at h1
    have hb : ∀ d : Char, plainChar d = false → (ch == d) = false :=
      fun d hd => plainChar_beq_false ch d h1.1 hd
    simp only [List.cons_append, parsePathComponentsAux, Bool.false_eq_true,
      if_false, hb '\\' (by decide), hb '(' (by decide), hb ')' (by decide),
      hb '.' (by decide), hb '|' (by decide), Bool.or_self, Bool.and_false,
      Bool.false_and, List.append_eq]
    rw [ih h1.2 rest lastSep (cur ++ [ch])]
    simp
/-- A separator character splits the accumulated segment. -/
theorem parseAux_sep (d : Char) (hd : d = '.' ∨ d = '|') (rest lastSep cur : Str) :
    parsePathComponentsAux (d :: rest) false false 0 lastSep cur =
      (if cur.isEmpty then parsePathComponentsAux rest false false 0 [d] []
       else ⟨cur, lastSep⟩ :: parsePathComponentsAux rest false false 0 [d] []) := by
  cases hd with
  | inl h => subst h; rfl
  | inr h => subst h; rfl

/-- Parsing a plain-token join yields exactly the tokens as components. -/
theorem parseAux_sepJoin (toks : List Str) (seps : List Char)
    (hne : toks ≠ [])
    (hplain : ∀ t ∈ toks, plainTok t = true)
    (hseps : ∀ d ∈ seps, d = '.' ∨ d = '|') :
    ∀ lastSep : Str,
      (parsePathComponentsAux (sepJoin toks seps) false false 0 lastSep []).map
        PathComponent.Component = toks := by
  induction toks generalizing seps with
  | nil => exact absurd rfl hne
  | cons t r ih =>
    intro lastSep
    have ht : plainTok t = true := hplain t (List.mem_cons_self t r)
    have htne : t.isEmpty = false := by
      have := (Bool.and_eq_true _ _).mp ht
      simpa using this.1
    have htall : t.all plainChar = true := by
      have := (Bool.and_eq_true _ _).mp ht
      exact this.2
    cases r with
    | nil =>
      show (parsePathComponentsAux (sepJoin [t] seps) false false 0 lastSep []).map
        PathComponent.Component = [t]
      have hsj : sepJoin [t] seps = t := by cases seps <;> rfl
      rw [hsj]
      have := parseAux_consume_plain t htall [] lastSep []
      simp only [List.append_nil, List.nil_append] at this
      rw [this]
      simp only [parsePathComponentsAux, htne, Bool.false_eq_true, if_false]
      rfl
    | cons t2 r2 =>
      have hsj : sepJoin (t :: t2 :: r2) seps =
          t ++ (seps.headD '.') :: sepJoin (t2 :: r2) seps.tail := by
        cases seps <;> rfl
      rw [hsj]
      have hcons := parseAux_consume_plain t htall
        ((seps.headD '.') :: sepJoin (t2 :: r2) seps.tail) lastSep []
      simp only [List.nil_append] at hcons
      rw [hcons]
      have hdsep : (seps.headD '.') = '.' ∨ (seps.headD '.') = '|' := by
        cases seps with
        | nil => exact Or.inl rfl
        | cons d ds => exact hseps d (List.mem_cons_self d ds)
      rw [parseAux_sep (seps.headD '.') hdsep _ lastSep t]
      rw [if_neg (by
        intro hcontra
        rw [hcontra] at htne
        exact Bool.noConfusion htne)]
      have ihr := ih seps.tail (by simp)
        (fun x hx => hplain x (List.mem_cons_of_mem t hx))
        (fun x hx => hseps x (by
          cases seps with
          | nil => simp at hx
          | cons d ds => exact List.mem_cons_of_mem d hx)) [seps.headD '.']
      simp only [List.map_cons, ihr]
/-- A plain-headed token keeps its head at the front of any join. -/
theorem sepJoin_cons_shape (ch : Char) (t' : Str) (r : List Str) (seps : List Char) :
    ∃ z, sepJoin ((ch :: t') :: r) seps = ch :: z := by
  cases r with
  | nil => exact ⟨t', by cases seps <;> rfl⟩
  | cons t2 r2 =>
    cases seps with
    | nil => exact ⟨t' ++ '.' :: sepJoin (t2 :: r2) [], rfl⟩
    | cons d ds => exact ⟨t' ++ d :: sepJoin (t2 :: r2) ds, rfl⟩

/-- Re-joining components uses dots, whatever the recorded separators were. -/
theorem joinPathComponents_eq_dotJoin :
    ∀ l : List PathComponent,
      joinPathComponents l = dotJoin (l.map PathComponent.Component) := by
  intro l
  induction l with
  | nil => rfl
  | cons c rest ih =>
    cases rest with
    | nil => rfl
    | cons c2 r2 =>
      show c.Component ++ '.' :: joinPathComponents (c2 :: r2) = _
      rw [ih]
      rfl

/-- Chaining `appendPath` is appending with a dot. -/
theorem appendPath_chain (cur t z : Str) (ht : t.isEmpty = false) :
    appendPath (appendPath cur t) z = appendPath cur (t ++ '.' :: z) := by
  cases cur with
  | nil =>
    show appendPath t z = appendPath [] (t ++ '.' :: z)
    simp [appendPath, ht]
  | cons c cs =>
    show appendPath ((c :: cs) ++ '.' :: t) z = (c :: cs) ++ '.' :: (t ++ '.' :: z)
    simp [appendPath, List.append_assoc]

/-- Expanding a component list of plain tokens emits exactly the dotted join
appended to the accumulated path, for every document. -/
theorem expand_plain_comps :
    ∀ (toks : List Str), toks ≠ [] → (∀ t ∈ toks, plainTok t = true) →
    ∀ (comps : List PathComponent), comps.map PathComponent.Component = toks →
    ∀ (fuel : Nat) (D : Json) (cur : Str), 3 * toks.length ≤ fuel →
      expandPathComponent fuel D comps 0 cur =
        .ok (some [appendPath cur (dotJoin toks)]) := by
  intro toks
  induction toks with
  | nil => intro h; exact absurd rfl h
  | cons t r ih =>
    intro _ hplain comps hmap fuel D cur hfuel
    cases comps with
    | nil => simp at hmap
    | cons pc rest =>
      simp only [List.map_cons, List.cons.injEq] at hmap
      obtain ⟨hpc, hrest⟩ := hmap
      have ht : plainTok t = true := hplain t (List.mem_cons_self t r)
      obtain ⟨ch, t', rfl⟩ : ∃ ch t', t = ch :: t' := by
        cases t with
        | nil => simp [plainTok] at ht
        | cons ch t' => exact ⟨ch, t', rfl⟩
      have hchain : (ch :: t').all plainChar = true :=
        ((Bool.and_eq_true _ _).mp ht).2
      have hch : plainChar ch = true := by
        simp only [List.all_cons, Bool.and_eq_true] at hchain
        exact hchain.1
      have hchAlpha : ch.isAlpha = true := ((Bool.and_eq_true _ _).mp hch).1
      have hchDigit : ch.isDigit = false := by
        have := ((Bool.and_eq_true _ _).mp hch).2
        simpa using this
      have hnm : ∀ d : Char, plainChar d = false → d ∉ (ch :: t') :=
        fun d hd => not_mem_plain _ d hchain hd
      have f1 : goHasPfx (ch :: t') (strL "~") = false := by
        rw [show (strL "~") = ['~'] from rfl, goHasPfx_cons_single]
        exact plainChar_beq_false ch '~' hch (by decide)
      have f2 : goContains (ch :: t') (strL "#(") = false :=
        goContains_false_of_not_mem _ '#' _ (hnm '#' (by decide))
      have f3 : goContains (ch :: t') (strL "#[") = false :=
        goContains_false_of_not_mem _ '#' _ (hnm '#' (by decide))
      have f4 : ((ch :: t' : Str) == strL "#") = false := by
        show (ch == '#' && (t' == ([] : Str))) = false
        rw [plainChar_beq_false ch '#' hch (by decide)]
        rfl
      have f5 : goContains (ch :: t') (strL "#") = false :=
        goContains_false_of_not_mem _ '#' _ (hnm '#' (by decide))
      have f6 : goContains (ch :: t') (strL "*") = false :=
        goContains_false_of_not_mem _ '*' _ (hnm '*' (by decide))
      have f7 : goContains (ch :: t') (strL "?") = false :=
        goContains_false_of_not_mem _ '?' _ (hnm '?' (by decide))
      have hA : goAtoi (ch :: t') = none := goAtoi_plain_none ch t' hchAlpha hchDigit
      obtain ⟨f, rfl⟩ : ∃ f, fuel = f + 3 :=
        ⟨fuel - 3, by simp only [List.length_cons] at hfuel; omega⟩
      simp only [expandPathComponent, List.get?, hpc, f1, f2, f3, f4, f5, f6, f7,
        Bool.false_eq_true, if_false, Bool.false_and, Bool.and_false,
        Bool.false_or, Bool.or_self, expandRegularField, hA]
      cases r with
      | nil =>
        have hrestnil : rest = [] := by
          cases rest with
          | nil => rfl
          | cons x xs => simp at hrest
        subst hrestnil
        rw [if_neg (by simp)]
        rfl
      | cons t2 r2 =>
        have hrestne : rest ≠ [] := by
          intro hcontra
          rw [hcontra] at hrest
          simp at hrest
        rw [if_pos (by
          cases rest with
          | nil => exact absurd rfl hrestne
          | cons x xs => simp only [List.length_cons]; omega)]
        have hjoin : joinPathComponents ((pc :: rest).drop 1) = dotJoin (t2 :: r2) := by
          rw [List.drop_one, List.tail_cons, joinPathComponents_eq_dotJoin, hrest]
        rw [hjoin]
        have ht2 : plainTok t2 = true :=
          hplain t2 (List.mem_cons_of_mem _ (List.mem_cons_self t2 r2))
        obtain ⟨ch2, t2', rfl⟩ : ∃ ch2 t2', t2 = ch2 :: t2' := by
          cases t2 with
          | nil => simp [plainTok] at ht2
          | cons ch2 t2' => exact ⟨ch2, t2', rfl⟩
        have hch2 : plainChar ch2 = true := by
          have := ((Bool.and_eq_true _ _).mp ht2).2
          simp only [List.all_cons, Bool.and_eq_true] at this
          exact this.1
        obtain ⟨z, hz⟩ := sepJoin_cons_shape ch2 t2' r2 []
        have hne2 : ((ch2 :: t2') :: r2 : List Str) ≠ [] := by simp
        have hplain2 : ∀ x ∈ (ch2 :: t2') :: r2, plainTok x = true :=
          fun x hx => hplain x (List.mem_cons_of_mem _ hx)
        have hmapped := parseAux_sepJoin ((ch2 :: t2') :: r2) [] hne2 hplain2
          (by simp) []
        have hpEmpty : (dotJoin ((ch2 :: t2') :: r2)).isEmpty = false := by
          rw [show dotJoin ((ch2 :: t2') :: r2) = ch2 :: z from hz]; rfl
        have hpAt : goHasPfx (dotJoin ((ch2 :: t2') :: r2)) (strL "@") = false := by
          rw [show dotJoin ((ch2 :: t2') :: r2) = ch2 :: z from hz,
            show (strL "@") = ['@'] from rfl, goHasPfx_cons_single]
          exact plainChar_beq_false ch2 '@' hch2 (by decide)
        have hparse : parsePathComponents (dotJoin ((ch2 :: t2') :: r2)) =
            parsePathComponentsAux (sepJoin ((ch2 :: t2') :: r2) []) false false 0 [] [] := by
          rw [parsePathComponents, if_neg (by
            intro hcontra
            rw [hcontra] at hpEmpty
            exact Bool.noConfusion hpEmpty)]
          rfl
        have hcomps_ne : (parsePathComponentsAux (sepJoin ((ch2 :: t2') :: r2) [])
            false false 0 [] []).isEmpty = false := by
          cases hcc : parsePathComponentsAux (sepJoin ((ch2 :: t2') :: r2) [])
            false false 0 [] [] with
          | nil => rw [hcc] at hmapped; simp at hmapped
          | cons a b => rfl
        simp only [expandSinglePath, hpEmpty, hpAt, Bool.false_eq_true, if_false,
          hparse, hcomps_ne]
        rw [ih hne2 hplain2 _ hmapped f (getFieldValue D (ch :: t')) (appendPath cur (ch :: t')) (by
          simp only [List.length_cons] at hfuel ⊢
          omega)]
        rw [appendPath_chain cur (ch :: t') (dotJoin ((ch2 :: t2') :: r2)) rfl]
        rfl
/-- Characters of a join are token characters, dots, or given separators. -/
theorem mem_sepJoin (toks : List Str) (seps : List Char) (x : Char)
    (hx : x ∈ sepJoin toks seps) :
    (∃ t ∈ toks, x ∈ t) ∨ x = '.' ∨ x ∈ seps := by
  induction toks generalizing seps with
  | nil => simp [sepJoin] at hx
  | cons t r ih =>
    cases r with
    | nil =>
      exact Or.inl ⟨t, List.mem_cons_self t [], by simpa [sepJoin] using hx⟩
    | cons t2 r2 =>
      cases seps with
      | nil =>
        rw [show sepJoin (t :: t2 :: r2) [] = t ++ '.' :: sepJoin (t2 :: r2) [] from rfl] at hx
        rcases List.mem_append.mp hx with h | h
        · exact Or.inl ⟨t, List.mem_cons_self t _, h⟩
        · rcases List.mem_cons.mp h with h | h
          · exact Or.inr (Or.inl h)
          · rcases ih [] h with ⟨tt, htt, hmm⟩ | h | h
            · exact Or.inl ⟨tt, List.mem_cons_of_mem t htt, hmm⟩
            · exact Or.inr (Or.inl h)
            · simp at h
      | cons d ds =>
        rw [show sepJoin (t :: t2 :: r2) (d :: ds) =
          t ++ d :: sepJoin (t2 :: r2) ds from rfl] at hx
        rcases List.mem_append.mp hx with h | h
        · exact Or.inl ⟨t, List.mem_cons_self t _, h⟩
        · rcases List.mem_cons.mp h with h | h
          · exact Or.inr (Or.inr (h ▸ List.mem_cons_self d ds))
          · rcases ih ds h with ⟨tt, htt, hmm⟩ | h | h
            · exact Or.inl ⟨tt, List.mem_cons_of_mem t htt, hmm⟩
            · exact Or.inr (Or.inl h)
            · exact Or.inr (Or.inr (List.mem_cons_of_mem d h))

/-- Expanding a join of plain tokens (with dot or pipe separators) against
any document yields exactly the dot-joined literal path. -/
theorem ExpandPath_sepJoin_plain (toks : List Str) (seps : List Char)
    (fuel : Nat) (D : Json)
    (hne : toks ≠ []) (hplain : ∀ t ∈ toks, plainTok t = true)
    (hseps : ∀ d ∈ seps, d = '.' ∨ d = '|')
    (hfuel : 3 * toks.length + 2 ≤ fuel) :
    ExpandPath fuel (some D) (sepJoin toks seps) = .ok (some [dotJoin toks]) := by
  obtain ⟨t, r, rfl⟩ : ∃ t r, toks = t :: r := by
    cases toks with
    | nil => exact absurd rfl hne
    | cons t r => exact ⟨t, r, rfl⟩
  have ht : plainTok t = true := hplain t (List.mem_cons_self t r)
  obtain ⟨ch, t', rfl⟩ : ∃ ch t2, t = ch :: t2 := by
    cases t with
    | nil => simp [plainTok] at ht
    | cons ch t2 => exact ⟨ch, t2, rfl⟩
  have hch : plainChar ch = true := by
    have := ((Bool.and_eq_true _ _).mp ht).2
    simp only [List.all_cons, Bool.and_eq_true] at this
    exact this.1
  obtain ⟨z, hz⟩ := sepJoin_cons_shape ch t' r seps
  obtain ⟨g, rfl⟩ : ∃ g, fuel = g + 2 :=
    ⟨fuel - 2, by simp only [List.length_cons] at hfuel; omega⟩
  have hg : 3 * ((ch :: t') :: r).length ≤ g := by
    simp only [List.length_cons] at hfuel ⊢
    omega
  have hpE : (sepJoin ((ch :: t') :: r) seps).isEmpty = false := by rw [hz]; rfl
  have hbeqAt : ((sepJoin ((ch :: t') :: r) seps) == strL "@this") = false := by
    rw [hz]
    show (ch == '@' && (z == strL "this")) = false
    rw [plainChar_beq_false ch '@' hch (by decide)]
    rfl
  have hpfxBr : goHasPfx (sepJoin ((ch :: t') :: r) seps) (strL "[") = false := by
    rw [hz, show (strL "[") = ['['] from rfl, goHasPfx_cons_single]
    exact plainChar_beq_false ch '[' hch (by decide)
  have hpfxLb : goHasPfx (sepJoin ((ch :: t') :: r) seps) [lbrace] = false := by
    rw [hz, goHasPfx_cons_single]
    exact plainChar_beq_false ch lbrace hch (by decide)
  have hpfxAt : goHasPfx (sepJoin ((ch :: t') :: r) seps) (strL "@") = false := by
    rw [hz, show (strL "@") = ['@'] from rfl, goHasPfx_cons_single]
    exact plainChar_beq_false ch '@' hch (by decide)
  have hnoComma : goContains (sepJoin ((ch :: t') :: r) seps) (strL ",!") = false := by
    apply goContains_false_of_not_mem
    intro hm
    rcases mem_sepJoin _ _ _ hm with ⟨tt, htt, hmem⟩ | h | h
    · have hall := ((Bool.and_eq_true _ _).mp (hplain tt htt)).2
      have := List.all_eq_true.mp hall ',' hmem
      exact absurd this (by decide)
    · exact absurd h (by decide)
    · rcases hseps ',' h with h1 | h1 <;> exact absurd h1 (by decide)
  have hmapped := parseAux_sepJoin ((ch :: t') :: r) seps (by simp) hplain hseps []
  have hparse : parsePathComponents (sepJoin ((ch :: t') :: r) seps) =
      parsePathComponentsAux (sepJoin ((ch :: t') :: r) seps) false false 0 [] [] := by
    rw [parsePathComponents, if_neg (by
      intro hcontra
      rw [hcontra] at hpE
      exact Bool.noConfusion hpE)]
  have hcompsNe : (parsePathComponentsAux (sepJoin ((ch :: t') :: r) seps)
      false false 0 [] []).isEmpty = false := by
    cases hcc : parsePathComponentsAux (sepJoin ((ch :: t') :: r) seps)
      false false 0 [] [] with
    | nil => rw [hcc] at hmapped; simp at hmapped
    | cons a b => rfl
  have hexp := expand_plain_comps ((ch :: t') :: r) (by simp) hplain _ hmapped
    g (D) [] hg
  simp only [ExpandPath, hpE, Bool.false_eq_true, if_false,
    expandPathWithData, hbeqAt, hpfxBr, hpfxLb, hnoComma, Bool.false_and,
    expandSinglePath, hpfxAt, hparse, hcompsNe, hexp, GoRes_bind_ok]
  rfl

/-! ### Claim C7 -/

/-- C7 fails on the code as stated: on the document with object key `0`, the
wildcard query returns the literal path `0`, but re-expanding `0` as a fresh
path yields the empty list (the token is integer-parseable, so it is treated
as an out-of-range array index), not `["0"]`. -/
theorem c7_counterexample :
    ExpandPath 100 (some zeroKeyDoc) (strL "*") = .ok (some [strL "0"]) ∧
    ExpandPath 100 (some zeroKeyDoc) (strL "0") = .ok (some []) := ⟨rfl, rfl⟩

/-- C7 amended: literal paths made of plain alphabetic field-name tokens are
stable fixed points — expanding such a path against any document returns
exactly that path (in particular this holds for every returned path of that
shape). -/
theorem c7_plain_literal_fixed_point (toks : List Str) (fuel : Nat) (D : Json)
    (hne : toks ≠ []) (hplain : ∀ t ∈ toks, plainTok t = true)
    (hfuel : 3 * toks.length + 2 ≤ fuel) :
    ExpandPath fuel (some D) (dotJoin toks) = .ok (some [dotJoin toks]) :=
  ExpandPath_sepJoin_plain toks [] fuel D hne hplain (by simp) hfuel

/-- Witness for `c7_plain_literal_fixed_point` at a concrete input. -/
theorem c7_witness :
    ExpandPath 8 (some (Json.obj [])) (strL "ab.cd") = .ok (some [strL "ab.cd"]) :=
  c7_plain_literal_fixed_point [strL "ab", strL "cd"] 8 (Json.obj [])
    (by decide) (by decide) (by decide)

/-! ### Claim C8 -/

/-- C8: dot- and pipe-separated paths over plain field segments expand to
identical result lists: the specification's concrete chain holds for every
document and every fuel, and in general any two separator choices over the
same plain tokens give equal expansions. -/
theorem c8_separator_equivalence :
    (∀ (fuel : Nat) (D : Json),
      ExpandPath fuel (some D) (strL "a.b.c") = ExpandPath fuel (some D) (strL "a|b|c") ∧
      ExpandPath fuel (some D) (strL "a|b|c") = ExpandPath fuel (some D) (strL "a.b|c")) ∧
    (∀ (toks : List Str) (sepsA sepsB : List Char) (fuel : Nat) (D : Json),
      toks ≠ [] → (∀ t ∈ toks, plainTok t = true) →
      (∀ d ∈ sepsA, d = '.' ∨ d = '|') → (∀ d ∈ sepsB, d = '.' ∨ d = '|') →
      3 * toks.length + 2 ≤ fuel →
      ExpandPath fuel (some D) (sepJoin toks sepsA) =
        ExpandPath fuel (some D) (sepJoin toks sepsB)) := by
  constructor
  · intro fuel D
    match fuel with
    | 0 => exact ⟨rfl, rfl⟩
    | 1 => exact ⟨rfl, rfl⟩
    | 2 => exact ⟨rfl, rfl⟩
    | 3 => exact ⟨rfl, rfl⟩
    | (f + 4) => exact ⟨rfl, rfl⟩
  · intro toks sepsA sepsB fuel D hne hplain hsA hsB hfuel
    rw [ExpandPath_sepJoin_plain toks sepsA fuel D hne hplain hsA hfuel,
      ExpandPath_sepJoin_plain toks sepsB fuel D hne hplain hsB hfuel]

/-- Witness for `c8_separator_equivalence` at a concrete input. -/
theorem c8_witness :
    ExpandPath 11 (some (Json.obj [])) (strL "a.b.c") =
      ExpandPath 11 (some (Json.obj [])) (strL "a|b|c") :=
  c8_separator_equivalence.2 [strL "a", strL "b", strL "c"] ['.', '.'] ['|', '|']
    11 (Json.obj []) (by decide) (by decide) (by decide) (by decide) (by decide)

/-! Model validation: the embedding reproduces the behaviors asserted by the
repository's own test suite on its fixture document. -/

/-- The model reproduces basic navigation, query and separator test cases. -/
theorem model_matches_fixture_tests :
    ExpandPath 100 (some sharedDoc) (strL "name.first") = .ok (some [strL "name.first"]) ∧
    ExpandPath 100 (some sharedDoc) (strL "friends.#.age") =
      .ok (some [strL "friends.0.age", strL "friends.1.age", strL "friends.2.age"]) ∧
    ExpandPath 100 (some sharedDoc) (strL "friends.#(last==\"Murphy\")#.first") =
      .ok (some [strL "friends.0.first", strL "friends.2.first"]) ∧
    ExpandPath 100 (some sharedDoc) (strL "friends.#(last==\"Murphy\").first") =
      .ok (some [strL "friends.0.first"]) ∧
    ExpandPath 100 (some sharedDoc) (strL "friends.#[last==\"Murphy\"]#.first") =
      .ok (some [strL "friends.0.first", strL "friends.2.first"]) ∧
    ExpandPath 100 (some sharedDoc) (strL "friends.#(nets.#(==\"fb\"))#.first") =
      .ok (some [strL "friends.0.first", strL "friends.1.first"]) ∧
    ExpandPath 100 (some sharedDoc) (strL "children.#") = .ok (some [strL "children.#"]) ∧
    ExpandPath 100 (some sharedDoc) (strL "children.#(%\"*a*\")") =
      .ok (some [strL "children.0", strL "children.2"]) ∧
    ExpandPath 100 (some sharedDoc) (strL "children.#(!%\"*a*\")") =
      .ok (some [strL "children.1"]) ∧
    ExpandPath 100 (some sharedDoc) (strL "friends|0.first") =
      .ok (some [strL "friends.0.first"]) ∧
    ExpandPath 100 (some sharedDoc) (strL "fav\\.movie") = .ok (some [strL "fav\\.movie"]) ∧
    ExpandPath 100 (some sharedDoc) (strL "name.first,!\"Happysoft\"") =
      .ok (some [strL "name.first"]) ∧
    ExpandPath 100 (some sharedDoc) (strL "@this") = .ok (some [strL "@this"]) ∧
    ExpandPath 100 (some aDoc) (strL "a.#.x") =
      .ok (some [strL "a.0.x", strL "a.1.x", strL "a.2.x"]) ∧
    ExpandPath 100 (some aDoc) (strL "[a.0.x,a.1.x]") =
      .ok (some [strL "a.0.x", strL "a.1.x"]) :=
  ⟨rfl, rfl, rfl, rfl, rfl, rfl, rfl, rfl, rfl, rfl, rfl, rfl, rfl, rfl, rfl⟩
